import Mathlib

/-!
# Corpus Cataloger — formal verification of the dedupe engine specification

Shallow embedding of the duplicate-detection engine of the Corpus_Cataloger
repository (files `catalog/util.py`, `catalog/dedupe.py`, `catalog/config.py`,
`catalog/commands/dedupe.py`) and proofs settling the specification claims.

Files are modelled as lists of bytes (`List Nat`), the catalog `files` table as
a list of rows, the filesystem as an association list from absolute paths to
file fates, hash digests by the exact byte-string fed to the hash object
(two digests agree iff their inputs agree, for a fixed hash function), and the
token-bucket arithmetic of the rate limiter over `ℚ`.
-/

namespace Cataloger

/-! ## List utilities shared by the hashing models -/

/-- Decimal ASCII representation of a byte count, as fed to the hash object by
`h.update(str(size).encode())` in `catalog/util.py`. -/
def decimalAscii (n : Nat) : List Nat :=
  (Nat.repr n).toList.map Char.toNat

/-- The last `n` elements of a list: Python's `buf[-n:]` for `n > 0`
(and `buf[len:] = []` when `n = 0`). -/
def lastN (n : Nat) (l : List Nat) : List Nat :=
  l.drop (l.length - n)

/-- Split a byte list into successive chunks of `c` bytes, fuelled by the list
length; models the `while True: chunk = f.read(c)` loop for `c > 0`. -/
def chunksAux : Nat → Nat → List Nat → List (List Nat)
  | 0, _, _ => []
  | _, _, [] => []
  | Nat.succ fuel, c, l => l.take c :: chunksAux fuel c (l.drop c)

/-- The sequence of chunks a Python read loop `f.read(c)` yields over a file.
For `c = 0` the loop reads `b""` immediately and terminates with no chunks. -/
def chunks (c : Nat) (l : List Nat) : List (List Nat) :=
  if c = 0 then [] else chunksAux l.length c l

/-- Concatenation of a chunk sequence. -/
def joinChunks (cs : List (List Nat)) : List Nat :=
  cs.foldl (fun acc ch => acc ++ ch) []

theorem chunksAux_join (c : Nat) (hc : 0 < c) :
    ∀ (fuel : Nat) (l : List Nat), l.length ≤ fuel →
      (chunksAux fuel c l).foldl (fun acc ch => acc ++ ch) [] = l := by
  intro fuel
  induction fuel with
  | zero =>
    intro l hl
    have : l = [] := List.eq_nil_of_length_eq_zero (Nat.le_zero.mp hl)
    subst this; rfl
  | succ fuel ih =>
    intro l hl
    cases l with
    | nil => rfl
    | cons a l' =>
      show ((a :: l').take c :: chunksAux fuel c ((a :: l').drop c)).foldl
        (fun acc ch => acc ++ ch) [] = a :: l'
      have hfold : ∀ (cs : List (List Nat)) (init : List Nat),
          cs.foldl (fun acc ch => acc ++ ch) init
            = init ++ cs.foldl (fun acc ch => acc ++ ch) [] := by
        intro cs
        induction cs with
        | nil => intro init; simp
        | cons ch cs ihc =>
          intro init
          simp only [List.foldl_cons]
          rw [ihc (init ++ ch), ihc ([] ++ ch)]
          simp
      rw [List.foldl_cons, hfold]
      have hdrop : ((a :: l').drop c).length ≤ fuel := by
        have h1 : ((a :: l').drop c).length = (a :: l').length - c := by
          simp
        have h2 : (a :: l').length - c ≤ (a :: l').length - 1 :=
          Nat.sub_le_sub_left hc _
        simp only [List.length_cons] at h2 ⊢
        omega
      rw [ih _ hdrop]
      simp [List.take_append_drop]

/-- A positive-size read loop consumes exactly the file. -/
theorem joinChunks_chunks (c : Nat) (hc : 0 < c) (l : List Nat) :
    joinChunks (chunks c l) = l := by
  unfold joinChunks chunks
  rw [if_neg (Nat.pos_iff_ne_zero.mp hc)]
  exact chunksAux_join c hc l.length l (Nat.le_refl _)

/-! ## Quick hash (`catalog/util.py`, `quick_hash`)

`quick_hash(path, n)` feeds the hash object, in order: the decimal ASCII
rendering of the file size; the result of `f.read(n)` from the start of the
file; and, only when `size > n`, the result of `f.read(n)` after
`f.seek(max(0, size - n))`.  Empty reads are skipped (`if head:` / `if tail:`),
which changes nothing about the concatenated input. -/

/-- The byte string fed to the hash object by `quick_hash` in
`catalog/util.py`: size prefix, then `f.read(n)` from offset 0, then — only
when `size > n` — `f.read(n)` from offset `size - n`. -/
def quick_hash_input (n : Nat) (file : List Nat) : List Nat :=
  decimalAscii file.length ++ file.take n ++
    (if n < file.length then (file.drop (file.length - n)).take n else [])

/-- The digest input claimed by the specification: `⟨size⟩ ∥ head[0:min(N,size)]
∥ tail[max(0,size−N):size]`, with the proviso that for `size ≤ N` (overlapping
head and tail) only the actual bytes are hashed once, with no zero padding. -/
def spec_quick_hash_input (n : Nat) (file : List Nat) : List Nat :=
  if file.length ≤ n then
    decimalAscii file.length ++ file
  else
    decimalAscii file.length ++ file.take (min n file.length)
      ++ file.drop (file.length - n)

/-- C3: for every file and every sample size `N > 0`, `quick_hash` hashes
exactly the byte string `⟨size⟩ ∥ head[0:min(N,size)] ∥ tail[max(0,size−N):size]`
demanded by the specification; when `size ≤ N` only the actual bytes are hashed
once (no zero padding), and when `size = 0` the digest input is the size prefix
alone. -/
theorem quick_hash_matches_spec (n : Nat) (file : List Nat) (hn : 0 < n) :
    quick_hash_input n file = spec_quick_hash_input n file ∧
    (file.length ≤ n → quick_hash_input n file = decimalAscii file.length ++ file) ∧
    (file = [] → quick_hash_input n file = decimalAscii 0) := by
  refine ⟨?_, ?_, ?_⟩
  · unfold quick_hash_input spec_quick_hash_input
    by_cases h : file.length ≤ n
    · rw [if_pos h, if_neg (Nat.not_lt.mpr h)]
      simp [List.take_of_length_le h]
    · have hlt : n < file.length := Nat.not_le.mp h
      rw [if_neg h, if_pos hlt]
      have hdl : (file.drop (file.length - n)).length = n := by
        simp
        omega
      have htake : (file.drop (file.length - n)).take n = file.drop (file.length - n) :=
        List.take_of_length_le (le_of_eq hdl)
      rw [htake, Nat.min_eq_left (Nat.le_of_lt hlt)]
  · intro h
    unfold quick_hash_input
    rw [if_neg (Nat.not_lt.mpr h)]
    simp [List.take_of_length_le h]
  · intro h
    subst h
    unfold quick_hash_input
    simp

/-- C3 witness: the theorem instantiated at `N = 4` and a six-byte file. -/
theorem quick_hash_matches_spec_witness :
    0 < 4 ∧
    (quick_hash_input 4 [10, 20, 30, 40, 50, 60]
        = spec_quick_hash_input 4 [10, 20, 30, 40, 50, 60] ∧
      (([10, 20, 30, 40, 50, 60] : List Nat).length ≤ 4 →
        quick_hash_input 4 [10, 20, 30, 40, 50, 60]
          = decimalAscii ([10, 20, 30, 40, 50, 60] : List Nat).length
              ++ [10, 20, 30, 40, 50, 60]) ∧
      (([10, 20, 30, 40, 50, 60] : List Nat) = [] →
        quick_hash_input 4 [10, 20, 30, 40, 50, 60] = decimalAscii 0)) :=
  ⟨by decide, quick_hash_matches_spec 4 [10, 20, 30, 40, 50, 60] (by decide)⟩

/-! ## One-pass small-file branch of `compute_sha256` (`catalog/dedupe.py`)

For rows with `size_bytes < small_file_threshold` and no pre-existing
`quick_hash`, `compute_sha256` streams the file once in chunks of
`min(sha_chunk_bytes, 64 * 1024)` bytes, feeding every chunk to the SHA-256
hasher while simultaneously capturing the first `n = quick_hash_bytes` bytes
(via `head_rem`) and maintaining a rolling tail buffer of at most `n` bytes
(`tail_buf`), finally feeding `str(size)`, the head bytes and — when
`size_bytes > n` — `tail_buf[-n:]` to the quick-hash object. -/

theorem foldl_append_init (cs : List (List Nat)) :
    ∀ init : List Nat,
      cs.foldl (fun acc ch => acc ++ ch) init = init ++ joinChunks cs := by
  induction cs with
  | nil => intro init; simp [joinChunks]
  | cons ch cs ihc =>
    intro init
    show List.foldl _ (init ++ ch) cs = init ++ joinChunks (ch :: cs)
    show List.foldl _ (init ++ ch) cs = init ++ List.foldl _ ([] ++ ch) cs
    rw [ihc (init ++ ch), ihc ([] ++ ch)]
    simp

theorem joinChunks_cons (ch : List Nat) (cs : List (List Nat)) :
    joinChunks (ch :: cs) = ch ++ joinChunks cs := by
  show List.foldl _ ([] ++ ch) cs = ch ++ joinChunks cs
  rw [foldl_append_init]
  simp

theorem lastN_nil (n : Nat) : lastN n [] = [] := by
  simp [lastN]

theorem length_lastN (n : Nat) (l : List Nat) :
    (lastN n l).length = min n l.length := by
  unfold lastN
  simp
  omega

theorem lastN_eq_self_of_le {n : Nat} {l : List Nat} (h : l.length ≤ n) :
    lastN n l = l := by
  unfold lastN
  rw [Nat.sub_eq_zero_of_le h, List.drop_zero]

theorem lastN_eq_reverse_take (n : Nat) (l : List Nat) :
    lastN n l = (l.reverse.take n).reverse := by
  unfold lastN
  rw [List.take_reverse, List.reverse_reverse]

/-- Dropping a front prefix that does not reach into the final `n` bytes
leaves the final `n` bytes unchanged. -/
theorem lastN_drop_append (n k : Nat) (a b : List Nat)
    (h : k + n ≤ a.length + b.length) :
    lastN n (a.drop k ++ b) = lastN n (a ++ b) := by
  rw [lastN_eq_reverse_take, lastN_eq_reverse_take, List.reverse_append,
    List.reverse_append, List.reverse_drop, List.take_append_eq_append_take,
    List.take_append_eq_append_take, List.take_take]
  simp only [List.length_reverse]
  congr 1
  have hmin : min (n - b.length) (a.length - k) = n - b.length := by omega
  rw [hmin]

theorem lastN_lastN (n : Nat) (l : List Nat) :
    lastN n (lastN n l) = lastN n l := by
  apply lastN_eq_self_of_le
  rw [length_lastN]
  omega

/-- Taking the last `n` of the accumulator before appending the next chunk
does not change the final `n` bytes. -/
theorem lastN_append_lastN (n : Nat) (p c : List Nat) :
    lastN n (lastN n p ++ c) = lastN n (p ++ c) := by
  by_cases h : n ≤ p.length
  · exact lastN_drop_append n (p.length - n) p c (by omega)
  · rw [lastN_eq_self_of_le (Nat.le_of_lt (Nat.not_le.mp h))]

/-- Loop state of the small-file branch: the head bytes captured so far for
the quick hash (`qh_h.update(chunk[:take])` accumulations), the remaining head
budget `head_rem`, and the rolling tail buffer `tail_buf`. -/
structure SmallState where
  headAcc : List Nat
  headRem : Nat
  tailBuf : List Nat
deriving DecidableEq

/-- The guarded trim `if len(tail_buf) >= n: excess = len(tail_buf) +
len(chunk) - n; if excess > 0: tail_buf = tail_buf[excess:]`. -/
def trimmedTail (n : Nat) (tb ch : List Nat) : List Nat :=
  if n ≤ tb.length ∧ 0 < tb.length + ch.length - n then
    tb.drop (tb.length + ch.length - n)
  else tb

/-- The unconditional final clamp `if len(tail_buf) > n: tail_buf =
tail_buf[-n:]`. -/
def clampTail (n : Nat) (l : List Nat) : List Nat :=
  if n < l.length then l.drop (l.length - n) else l

/-- One chunk's effect on `tail_buf` (the whole block runs under `if n > 0`). -/
def smallStepTail (n : Nat) (tb ch : List Nat) : List Nat :=
  if 0 < n then clampTail n (trimmedTail n tb ch ++ ch) else tb

/-- One chunk's effect on the whole loop state: `hasher.update(chunk)` is the
SHA-256 side (tracked separately as the chunk concatenation), the head capture
runs under `if head_rem > 0`, and the tail maintenance under `if n > 0`. -/
def smallStep (n : Nat) (s : SmallState) (ch : List Nat) : SmallState where
  headAcc :=
    if 0 < s.headRem then s.headAcc ++ ch.take (min s.headRem ch.length)
    else s.headAcc
  headRem :=
    if 0 < s.headRem then s.headRem - min s.headRem ch.length else s.headRem
  tailBuf := smallStepTail n s.tailBuf ch

theorem clampTail_eq_lastN (n : Nat) (l : List Nat) :
    clampTail n l = lastN n l := by
  unfold clampTail lastN
  by_cases h : n < l.length
  · rw [if_pos h]
  · rw [if_neg h, Nat.sub_eq_zero_of_le (Nat.not_lt.mp h), List.drop_zero]

/-- One tail step turns the buffer into the last `n` bytes of
buffer-plus-chunk. -/
theorem smallStepTail_eq (n : Nat) (hn : 0 < n) (tb ch : List Nat) :
    smallStepTail n tb ch = lastN n (tb ++ ch) := by
  unfold smallStepTail trimmedTail
  rw [if_pos hn, clampTail_eq_lastN]
  by_cases hg : n ≤ tb.length ∧ 0 < tb.length + ch.length - n
  · rw [if_pos hg]
    exact lastN_drop_append n (tb.length + ch.length - n) tb ch (by omega)
  · rw [if_neg hg]

/-- Folding the loop body over any chunk sequence, starting from the state
reached after `p` bytes, captures exactly the first `n` bytes and the last `n`
bytes of everything processed. -/
theorem smallFold_spec (n : Nat) :
    ∀ (cs : List (List Nat)) (p : List Nat),
      cs.foldl (smallStep n) ⟨p.take n, n - p.length, lastN n p⟩
        = ⟨(p ++ joinChunks cs).take n, n - (p ++ joinChunks cs).length,
            lastN n (p ++ joinChunks cs)⟩ := by
  intro cs
  induction cs with
  | nil =>
    intro p
    simp [joinChunks]
  | cons ch cs ih =>
    intro p
    rw [List.foldl_cons, joinChunks_cons, ← List.append_assoc]
    have hstep : smallStep n ⟨p.take n, n - p.length, lastN n p⟩ ch
        = ⟨(p ++ ch).take n, n - (p ++ ch).length, lastN n (p ++ ch)⟩ := by
      unfold smallStep
      simp only [SmallState.mk.injEq]
      refine ⟨?_, ?_, ?_⟩
      · by_cases h : 0 < n - p.length
        · rw [if_pos h, List.take_append_eq_append_take,
            List.take_of_length_le (by omega)]
          congr 1
          rw [List.take_eq_take]
          omega
        · rw [if_neg h, List.take_append_of_le_length (by omega)]
      · by_cases h : 0 < n - p.length
        · rw [if_pos h]
          simp only [List.length_append]
          omega
        · rw [if_neg h]
          simp only [List.length_append]
          omega
      · by_cases hn : 0 < n
        · rw [smallStepTail_eq n hn, lastN_append_lastN]
        · have h0 : n = 0 := by omega
          subst h0
          show lastN 0 p = lastN 0 (p ++ ch)
          unfold lastN
          rw [Nat.sub_zero, Nat.sub_zero, List.drop_length, List.drop_length]
    rw [hstep, ih (p ++ ch)]

/-- The read size of the small-file loop: `f.read(min(sha_chunk_bytes,
64 * 1024))`. -/
def readChunkSize (sha_chunk_bytes : Nat) : Nat :=
  min sha_chunk_bytes (64 * 1024)

/-- Final loop state of the small-file branch of `compute_sha256`. -/
def small_branch_state (n c : Nat) (file : List Nat) : SmallState :=
  (chunks (readChunkSize c) file).foldl (smallStep n) ⟨[], n, []⟩

/-- The byte string the small-file branch feeds to the quick-hash object:
`str(size_bytes)`, then the captured head bytes, then — under
`if n > 0 and len(tail_buf) > 0 and size_bytes > n` — `tail_buf[-n:]`. -/
def small_branch_quick_input (n c sizeB : Nat) (file : List Nat) : List Nat :=
  decimalAscii sizeB ++ (small_branch_state n c file).headAcc ++
    (if 0 < n ∧ (small_branch_state n c file).tailBuf ≠ [] ∧ n < sizeB
     then lastN n (small_branch_state n c file).tailBuf
     else [])

/-- The byte string the small-file branch feeds to the SHA-256 hasher: every
chunk read by the loop, in order. -/
def small_branch_sha_input (c : Nat) (file : List Nat) : List Nat :=
  joinChunks (chunks (readChunkSize c) file)

/-- The byte string `sha256_file` in `catalog/util.py` feeds to its hasher:
every chunk of its own read loop, in order. -/
def sha256_file_input (chunk_size : Nat) (file : List Nat) : List Nat :=
  joinChunks (chunks chunk_size file)

/-- C5: for a stable file whose catalog `size_bytes` matches its on-disk
length, the one-pass small-file branch of `compute_sha256` feeds its
quick-hash object exactly the bytes `quick_hash(path, quick_hash_bytes)` would
hash in the two-read sampling way, and feeds its SHA-256 hasher exactly the
whole file, i.e. the bytes `sha256_file(path)` hashes. -/
theorem small_file_one_pass_matches (n c c2 sizeB : Nat) (file : List Nat)
    (hsize : sizeB = file.length) (hc : 0 < c) (hc2 : 0 < c2) :
    small_branch_quick_input n c sizeB file = quick_hash_input n file ∧
    small_branch_sha_input c file = sha256_file_input c2 file := by
  have hrs : 0 < readChunkSize c := by
    unfold readChunkSize
    omega
  have hjoin : joinChunks (chunks (readChunkSize c) file) = file :=
    joinChunks_chunks _ hrs file
  have hstate : small_branch_state n c file
      = ⟨file.take n, n - file.length, lastN n file⟩ := by
    unfold small_branch_state
    have h0 : (⟨[], n, []⟩ : SmallState)
        = ⟨([] : List Nat).take n, n - ([] : List Nat).length, lastN n []⟩ := by
      rw [lastN_nil]
      simp
    rw [h0, smallFold_spec n (chunks (readChunkSize c) file) [], hjoin]
    simp
  constructor
  · unfold small_branch_quick_input quick_hash_input
    rw [hstate, hsize]
    simp only []
    congr 1
    by_cases hlt : n < file.length
    · by_cases hn : 0 < n
      · have htb : (lastN n file) ≠ [] := by
          have : (lastN n file).length = min n file.length := length_lastN n file
          intro hnil
          rw [hnil] at this
          simp at this
          omega
        rw [if_pos ⟨hn, htb, hlt⟩, if_pos hlt, lastN_lastN]
        unfold lastN
        rw [List.take_of_length_le (by simp; omega)]
      · have hn0 : n = 0 := by omega
        subst hn0
        rw [if_neg (by simp), if_pos hlt]
        simp
    · rw [if_neg (by simp [hlt]), if_neg hlt]
  · unfold small_branch_sha_input sha256_file_input
    rw [hjoin, joinChunks_chunks _ hc2 file]

/-- C5 witness: quick-hash window 3 bytes, sha chunks 2 and 5 bytes, over a
seven-byte file. -/
theorem small_file_one_pass_matches_witness :
    (7 : Nat) = ([1, 2, 3, 4, 5, 6, 7] : List Nat).length ∧ 0 < 2 ∧ 0 < 5 ∧
    (small_branch_quick_input 3 2 7 [1, 2, 3, 4, 5, 6, 7]
        = quick_hash_input 3 [1, 2, 3, 4, 5, 6, 7] ∧
      small_branch_sha_input 2 [1, 2, 3, 4, 5, 6, 7]
        = sha256_file_input 5 [1, 2, 3, 4, 5, 6, 7]) :=
  ⟨by decide, by decide, by decide,
    small_file_one_pass_matches 3 2 5 7 [1, 2, 3, 4, 5, 6, 7]
      (by decide) (by decide) (by decide)⟩

/-! ## ByteRateLimiter (`catalog/dedupe.py`, `detect_duplicates` local class)

The token bucket holds `rate = max(1, int(rate_bps))`,
`capacity = int(burst or self.rate)` and `tokens = float(self.capacity)`.
`acquire(n)` returns at once for `n <= 0`; otherwise it loops: refill
`tokens = min(capacity, tokens + elapsed * rate)` when `elapsed > 0`, exit
deducting `n` when `tokens >= n`, else sleep
`max(0.001, (n - tokens) / rate)` and retry.  Token and time arithmetic is
modelled over `ℚ`; a run of the loop is indexed by the sequence of `elapsed`
values observed at each iteration. -/

structure ByteRateLimiter where
  rate : Int
  capacity : Int
  tokens : ℚ
deriving DecidableEq

/-- `__init__`: `burst or self.rate` falls back to the rate when `burst` is
`None` or `0` (Python falsiness). -/
def mkByteRateLimiter (rate_bps : Int) (burst : Option Int) : ByteRateLimiter :=
  let r := max 1 rate_bps
  let cap := match burst with
    | some b => if b ≠ 0 then b else r
    | none => r
  ⟨r, cap, (cap : ℚ)⟩

/-- `detect_duplicates` builds the limiter only under
`if io_bytes_per_sec and io_bytes_per_sec > 0`. -/
def limiterFromConfig (io_bytes_per_sec : Option Int) : Option ByteRateLimiter :=
  match io_bytes_per_sec with
  | some r => if 0 < r then some (mkByteRateLimiter r none) else none
  | none => none

/-- The refill `if elapsed > 0: tokens = min(capacity, tokens + elapsed*rate)`. -/
def refillTokens (lim : ByteRateLimiter) (e : ℚ) : ℚ :=
  if 0 < e then min (lim.capacity : ℚ) (lim.tokens + e * (lim.rate : ℚ))
  else lim.tokens

/-- State after one full loop iteration with elapsed time `e` (refill, then
deduct when the request is satisfiable). -/
def iterState (lim : ByteRateLimiter) (n e : ℚ) : ByteRateLimiter :=
  if n ≤ refillTokens lim e then { lim with tokens := refillTokens lim e - n }
  else { lim with tokens := refillTokens lim e }

/-- The sleep the code requests after a failed iteration:
`max(0.001, needed / self.rate)`. -/
def sleepAfter (lim : ByteRateLimiter) (n e : ℚ) : ℚ :=
  max (1 / 1000) ((n - refillTokens lim e) / (lim.rate : ℚ))

/-- The `while True` body of `acquire`, iterated along the observed elapsed
times; `some lim'` = returned with final state, `none` = still blocked after
consuming the whole schedule. -/
def acquireLoop (lim : ByteRateLimiter) (n : ℚ) : List ℚ → Option ByteRateLimiter
  | [] => none
  | e :: es =>
    if n ≤ refillTokens lim e then
      some { lim with tokens := refillTokens lim e - n }
    else acquireLoop { lim with tokens := refillTokens lim e } n es

/-- `acquire(n)`: the `if n <= 0: return` fast path, then the loop. -/
def acquire (lim : ByteRateLimiter) (n : ℚ) (es : List ℚ) : Option ByteRateLimiter :=
  if n ≤ 0 then some lim else acquireLoop lim n es

/-- A request that no schedule of elapsed times can ever satisfy. -/
def neverReturns (lim : ByteRateLimiter) (n : ℚ) : Prop :=
  ∀ es : List ℚ, acquire lim n es = none

theorem refillTokens_le_capacity (lim : ByteRateLimiter) (e : ℚ)
    (h : lim.tokens ≤ (lim.capacity : ℚ)) :
    refillTokens lim e ≤ (lim.capacity : ℚ) := by
  unfold refillTokens
  by_cases he : 0 < e
  · rw [if_pos he]
    exact min_le_left _ _
  · rw [if_neg he]
    exact h

theorem refillTokens_nonneg (lim : ByteRateLimiter) (e : ℚ)
    (hr : (1 : Int) ≤ lim.rate) (hlo : 0 ≤ lim.tokens)
    (hhi : lim.tokens ≤ (lim.capacity : ℚ)) :
    0 ≤ refillTokens lim e := by
  unfold refillTokens
  by_cases he : 0 < e
  · rw [if_pos he]
    have hcap : (0 : ℚ) ≤ (lim.capacity : ℚ) := le_trans hlo hhi
    have hrq : (1 : ℚ) ≤ (lim.rate : ℚ) := by exact_mod_cast hr
    have : 0 ≤ e * (lim.rate : ℚ) :=
      mul_nonneg (le_of_lt he) (le_trans zero_le_one hrq)
    exact le_min hcap (by linarith)
  · rw [if_neg he]
    exact hlo

theorem acquireLoop_none_of_capacity_lt (n : ℚ) :
    ∀ (es : List ℚ) (lim : ByteRateLimiter),
      lim.tokens ≤ (lim.capacity : ℚ) → (lim.capacity : ℚ) < n →
      acquireLoop lim n es = none := by
  intro es
  induction es with
  | nil => intro lim _ _; rfl
  | cons e es ih =>
    intro lim hhi hcap
    unfold acquireLoop
    have hle : refillTokens lim e ≤ (lim.capacity : ℚ) :=
      refillTokens_le_capacity lim e hhi
    rw [if_neg (by push_neg; exact lt_of_le_of_lt hle hcap)]
    exact ih _ (by simpa using hle) hcap

/-- C4 counterexample: with a configured rate of 1 byte/second (capacity 1),
a request of 2 bytes blocks forever — `acquire(n)` does not always eventually
return. -/
theorem acquire_two_bytes_at_rate_one_never_returns :
    neverReturns (mkByteRateLimiter 1 none) 2 := by
  intro es
  unfold acquire
  rw [if_neg (by norm_num)]
  exact acquireLoop_none_of_capacity_lt 2 es (mkByteRateLimiter 1 none)
    (by norm_num [mkByteRateLimiter]) (by norm_num [mkByteRateLimiter])

/-- C4 (amended): when a rate is configured and `0 < n ≤ capacity`, `acquire`
returns within two loop iterations — after at most one sleep — as long as
the monotonic clock advances by at least the requested sleep; requests
exceeding the bucket capacity instead loop forever (see the counterexample);
and when `io_bytes_per_sec` is absent or non-positive no limiter is
constructed, so acquiring is a no-op. -/
theorem acquire_terminates_within_capacity (lim : ByteRateLimiter)
    (n e0 d : ℚ) (hr : (1 : Int) ≤ lim.rate) (hlo : 0 ≤ lim.tokens)
    (hhi : lim.tokens ≤ (lim.capacity : ℚ)) (hn : 0 < n)
    (hcap : n ≤ (lim.capacity : ℚ)) (hd : 0 ≤ d) :
    (acquire lim n [e0, sleepAfter lim n e0 + d]).isSome = true ∧
    limiterFromConfig none = none ∧
    (∀ r : Int, r ≤ 0 → limiterFromConfig (some r) = none) := by
  refine ⟨?_, rfl, ?_⟩
  · unfold acquire
    rw [if_neg (by push_neg; exact hn)]
    unfold acquireLoop
    by_cases h1 : n ≤ refillTokens lim e0
    · rw [if_pos h1]
      rfl
    · rw [if_neg h1]
      unfold acquireLoop
      have hrq : (1 : ℚ) ≤ (lim.rate : ℚ) := by exact_mod_cast hr
      have hrpos : (0 : ℚ) < (lim.rate : ℚ) := lt_of_lt_of_le one_pos hrq
      have ht0 : 0 ≤ refillTokens lim e0 :=
        refillTokens_nonneg lim e0 hr hlo hhi
      have hsleep : (n - refillTokens lim e0) / (lim.rate : ℚ)
          ≤ sleepAfter lim n e0 + d := by
        unfold sleepAfter
        have := le_max_right (1 / 1000 : ℚ)
          ((n - refillTokens lim e0) / (lim.rate : ℚ))
        linarith
      have hepos : 0 < sleepAfter lim n e0 + d := by
        unfold sleepAfter
        have := le_max_left (1 / 1000 : ℚ)
          ((n - refillTokens lim e0) / (lim.rate : ℚ))
        have h1000 : (0 : ℚ) < 1 / 1000 := by norm_num
        linarith
      have hgain : n - refillTokens lim e0
          ≤ (sleepAfter lim n e0 + d) * (lim.rate : ℚ) :=
        (div_le_iff₀ hrpos).mp hsleep
      have h2 : n ≤ refillTokens { lim with tokens := refillTokens lim e0 }
          (sleepAfter lim n e0 + d) := by
        unfold refillTokens
        rw [if_pos hepos]
        refine le_min hcap ?_
        show n ≤ refillTokens lim e0 + (sleepAfter lim n e0 + d) * (lim.rate : ℚ)
        linarith
      rw [if_pos h2]
      rfl
  · intro r hr0
    show (if 0 < r then some (mkByteRateLimiter r none) else none) = none
    rw [if_neg (by omega)]

/-- C4 witness for the amended theorem: rate 10, a 3-byte request from an
empty bucket, first elapsed 0, exact sleep honoured. -/
theorem acquire_terminates_within_capacity_witness :
    (1 : Int) ≤ (ByteRateLimiter.mk 10 10 0).rate ∧
    (0 : ℚ) ≤ (ByteRateLimiter.mk 10 10 0).tokens ∧
    (ByteRateLimiter.mk 10 10 0).tokens
      ≤ ((ByteRateLimiter.mk 10 10 0).capacity : ℚ) ∧
    (0 : ℚ) < 3 ∧ (3 : ℚ) ≤ ((ByteRateLimiter.mk 10 10 0).capacity : ℚ) ∧
    (0 : ℚ) ≤ 0 ∧
    ((acquire (ByteRateLimiter.mk 10 10 0) 3
        [0, sleepAfter (ByteRateLimiter.mk 10 10 0) 3 0 + 0]).isSome = true ∧
      limiterFromConfig none = none ∧
      (∀ r : Int, r ≤ 0 → limiterFromConfig (some r) = none)) :=
  ⟨by decide, by decide, by decide, by decide, by decide, by decide,
    acquire_terminates_within_capacity (ByteRateLimiter.mk 10 10 0) 3 0 0
      (by decide) (by decide) (by decide) (by decide) (by decide) (by decide)⟩

/-- C10: the limiter state invariant `0 ≤ tokens ≤ capacity` holds after
construction (no burst supplied) and is preserved by every refill-and-deduct
iteration of `acquire`; `acquire(n)` with `n ≤ 0` returns immediately without
modifying the state; and with no burst the capacity is the configured rate
clamped to at least 1. -/
theorem byte_rate_limiter_invariants (rate_bps : Int) (lim : ByteRateLimiter)
    (n e : ℚ) (es : List ℚ) (hr : (1 : Int) ≤ lim.rate)
    (hlo : 0 ≤ lim.tokens) (hhi : lim.tokens ≤ (lim.capacity : ℚ))
    (hn : 0 < n) :
    (0 ≤ (mkByteRateLimiter rate_bps none).tokens ∧
      (mkByteRateLimiter rate_bps none).tokens
        ≤ ((mkByteRateLimiter rate_bps none).capacity : ℚ)) ∧
    (mkByteRateLimiter rate_bps none).capacity = max 1 rate_bps ∧
    (acquireLoop lim n (e :: es)
      = if n ≤ refillTokens lim e then some (iterState lim n e)
        else acquireLoop (iterState lim n e) n es) ∧
    (0 ≤ (iterState lim n e).tokens ∧
      (iterState lim n e).tokens ≤ ((iterState lim n e).capacity : ℚ)) ∧
    (∀ m : ℚ, m ≤ 0 → acquire lim m es = some lim) := by
  have hre : 0 ≤ refillTokens lim e := refillTokens_nonneg lim e hr hlo hhi
  have hrc : refillTokens lim e ≤ (lim.capacity : ℚ) :=
    refillTokens_le_capacity lim e hhi
  refine ⟨⟨?_, le_refl _⟩, rfl, ?_, ?_, ?_⟩
  · show (0 : ℚ) ≤ ((max 1 rate_bps : Int) : ℚ)
    exact_mod_cast (by omega : (0 : Int) ≤ max 1 rate_bps)
  · simp only [acquireLoop]
    unfold iterState
    by_cases h : n ≤ refillTokens lim e
    · simp only [if_pos h]
    · simp only [if_neg h]
  · unfold iterState
    by_cases h : n ≤ refillTokens lim e
    · rw [if_pos h]
      refine ⟨?_, ?_⟩
      · show 0 ≤ refillTokens lim e - n
        linarith
      · show refillTokens lim e - n ≤ (lim.capacity : ℚ)
        linarith
    · rw [if_neg h]
      exact ⟨hre, hrc⟩
  · intro m hm
    unfold acquire
    rw [if_pos hm]

/-- C10 witness: rate 5 at a legal state, a 2-byte request, elapsed 1. -/
theorem byte_rate_limiter_invariants_witness :
    (1 : Int) ≤ (ByteRateLimiter.mk 5 5 1).rate ∧
    (0 : ℚ) ≤ (ByteRateLimiter.mk 5 5 1).tokens ∧
    (ByteRateLimiter.mk 5 5 1).tokens ≤ ((ByteRateLimiter.mk 5 5 1).capacity : ℚ) ∧
    (0 : ℚ) < 2 ∧
    ((0 ≤ (mkByteRateLimiter 7 none).tokens ∧
        (mkByteRateLimiter 7 none).tokens
          ≤ ((mkByteRateLimiter 7 none).capacity : ℚ)) ∧
      (mkByteRateLimiter 7 none).capacity = max 1 7 ∧
      (acquireLoop (ByteRateLimiter.mk 5 5 1) 2 (1 :: [])
        = if 2 ≤ refillTokens (ByteRateLimiter.mk 5 5 1) 1
          then some (iterState (ByteRateLimiter.mk 5 5 1) 2 1)
          else acquireLoop (iterState (ByteRateLimiter.mk 5 5 1) 2 1) 2 []) ∧
      (0 ≤ (iterState (ByteRateLimiter.mk 5 5 1) 2 1).tokens ∧
        (iterState (ByteRateLimiter.mk 5 5 1) 2 1).tokens
          ≤ ((iterState (ByteRateLimiter.mk 5 5 1) 2 1).capacity : ℚ)) ∧
      (∀ m : ℚ, m ≤ 0 → acquire (ByteRateLimiter.mk 5 5 1) m [] =
        some (ByteRateLimiter.mk 5 5 1))) :=
  ⟨by decide, by decide, by decide, by decide,
    byte_rate_limiter_invariants 7 (ByteRateLimiter.mk 5 5 1) 2 1 []
      (by decide) (by decide) (by decide) (by decide)⟩

/-! ## Catalog rows and the default `detect_duplicates` pipeline
(`catalog/dedupe.py`)

The `files` table is a list of rows; the filesystem is an association list
from absolute path to a fate (`present bytes`, absent, or a read error).
Digests are identified with the byte string fed to the hash object (a fixed
hash function makes two digests equal iff their inputs are).  The default
pipeline (quick hash stage, SHA stage, finalization; no `--progressive`, no
`--network-friendly`, no `--blake3`, no cancellation) materializes each
stage's candidate set from the table as it stands when the stage starts, then
maps the per-file operation over the candidates. -/

inductive FileState
  | pending
  | quickHashed
  | shaVerified
  | done
  | missing
  | error
deriving DecidableEq

structure FileRow where
  fileId : Nat
  pathAbs : String
  ext : Option String
  sizeBytes : Nat
  state : FileState
  quickHash : Option (List Nat)
  sha256 : Option (List Nat)
deriving DecidableEq

/-- `state NOT IN ('error', 'missing')`. -/
def stateOk : FileState → Bool
  | .error => false
  | .missing => false
  | _ => true

/-- `COALESCE(ext, '')`. -/
def extKey (r : FileRow) : String := r.ext.getD ""

/-- The `(size_bytes, COALESCE(ext, ''))` grouping key. -/
def rowKey (r : FileRow) : Nat × String := (r.sizeBytes, extKey r)

/-- `prefix.rstrip('\\/')` in `build_path_filter_sql`. -/
def stripSeps (p : String) : String :=
  p.dropRightWhile (fun c => c == '\\' || c == '/')

/-- `path_abs LIKE prefix.rstrip('\\/') + '%'` — SQLite `LIKE` is
ASCII-case-insensitive prefix matching for a `%`-terminated pattern. -/
def likePrefixMatch (pref path : String) : Bool :=
  path.toLower.startsWith (stripSeps pref).toLower

/-- The include/exclude conjunction produced by `build_path_filter_sql`:
`(path LIKE p1% OR …) AND NOT (path LIKE x1% OR …)`, each part omitted when
its prefix list is empty. -/
def pathFilter (inc exc : List String) (path : String) : Bool :=
  (inc.isEmpty || inc.any (fun p => likePrefixMatch p path)) &&
  (exc.isEmpty || !(exc.any (fun p => likePrefixMatch p path)))

/-- Rows eligible for size/extension grouping: `state NOT IN
('error','missing') AND size_bytes >= min_file_size`. -/
def activeMinRows (db : List FileRow) (mfs : Nat) : List FileRow :=
  db.filter (fun r => stateOk r.state && decide (mfs ≤ r.sizeBytes))

/-- Number of grouping-eligible rows sharing a `(size, ext)` key. -/
def groupCount (db : List FileRow) (mfs : Nat) (k : Nat × String) : Nat :=
  (db.filter (fun r =>
    stateOk r.state && decide (mfs ≤ r.sizeBytes) && decide (rowKey r = k))).length

/-- The `dup_candidates` CTE: `(size_bytes, COALESCE(ext,''))` pairs of
grouping-eligible rows `HAVING COUNT(*) >= min_duplicate_count`. -/
def dupCandidateKeys (db : List FileRow) (mfs mdc : Nat) : List (Nat × String) :=
  (((activeMinRows db mfs).map rowKey).dedup).filter
    (fun k => decide (mdc ≤ groupCount db mfs k))

/-- The `qh_candidates` selection: join against `dup_candidates` on the
`(size, ext)` key, `WHERE quick_hash IS NULL AND state NOT IN
('error','missing') AND size_bytes >= min_file_size` plus the path filters. -/
def isQhCandidate (db : List FileRow) (mfs mdc : Nat) (inc exc : List String)
    (r : FileRow) : Bool :=
  decide (rowKey r ∈ dupCandidateKeys db mfs mdc) &&
  r.quickHash.isNone && stateOk r.state && decide (mfs ≤ r.sizeBytes) &&
  pathFilter inc exc r.pathAbs

/-- The specification's wording of quick-hash candidacy (C7): `quick_hash`
null, state ∉ {error, missing}, `size_bytes ≥ min_file_size`, path filters
pass, and the row's `(size_bytes, ext)` group — counted over all rows with
state ∉ {error, missing} and `size_bytes ≥ min_file_size` — has at least
`min_duplicate_count` members. -/
def spec_quickHashCandidate (db : List FileRow) (mfs mdc : Nat)
    (inc exc : List String) (r : FileRow) : Prop :=
  r.quickHash = none ∧ stateOk r.state = true ∧ mfs ≤ r.sizeBytes ∧
  pathFilter inc exc r.pathAbs = true ∧
  mdc ≤ groupCount db mfs (rowKey r)

/-- Fate of a path on disk at access time. -/
inductive FsFate
  | present (bytes : List Nat)
  | absent
  | readError (msg : String)
deriving DecidableEq

/-- The filesystem as seen by one run. -/
abbrev Filesystem := List (String × FsFate)

def fsLookup (fs : Filesystem) (path : String) : FsFate :=
  match fs.find? (fun e => e.1 == path) with
  | some e => e.2
  | none => .absent

def fateSuccess : FsFate → Bool
  | .present _ => true
  | _ => false

def fateMissing : FsFate → Bool
  | .absent => true
  | _ => false

def fateError : FsFate → Bool
  | .readError _ => true
  | _ => false

/-- Configuration slice consumed by the default pipeline. -/
structure DetectParams where
  qhBytes : Nat
  smallThr : Nat
  shaChunk : Nat
  mfs : Nat
  mdc : Nat
  inc : List String
  exc : List String
deriving DecidableEq

/-- `compute_quick_hash` outcome applied to a row: missing → state
`missing`, read failure → state `error`, success → store the quick hash and
state `quick_hashed`. -/
def stage1Row (fs : Filesystem) (qhBytes : Nat) (r : FileRow) : FileRow :=
  match fsLookup fs r.pathAbs with
  | .absent => { r with state := .missing }
  | .readError _ => { r with state := .error }
  | .present bytes =>
      { r with quickHash := some (quick_hash_input qhBytes bytes),
               state := .quickHashed }

/-- The conditional per-row effect of stage 1: candidates (materialized
against the table on entry) are processed, all other rows are untouched. -/
def stage1Apply (P : DetectParams) (fs : Filesystem) (db : List FileRow)
    (r : FileRow) : FileRow :=
  if isQhCandidate db P.mfs P.mdc P.inc P.exc r then stage1Row fs P.qhBytes r
  else r

/-- Stage 1 over the whole table. -/
def stage1 (P : DetectParams) (fs : Filesystem) (db : List FileRow) :
    List FileRow :=
  db.map (stage1Apply P fs db)

/-- Count of rows sharing a given quick-hash value. -/
def qhCount (db : List FileRow) (q : List Nat) : Nat :=
  (db.filter (fun r => decide (r.quickHash = some q))).length

/-- The `duplicate_quick_hashes` CTE: quick-hash values held by more than one
row (no state or size condition). -/
def dupQuickHashes (db : List FileRow) : List (List Nat) :=
  ((db.filterMap (fun r => r.quickHash)).dedup).filter
    (fun q => decide (2 ≤ qhCount db q))

/-- The non-network `sha_candidates` selection: join `dup_candidates`,
`WHERE sha256 IS NULL AND state ok AND (quick_hash collides with another row
OR (size_bytes < small_file_threshold AND quick_hash IS NULL AND size_bytes >=
min_file_size))` plus the path filters. -/
def isShaCandidate (db : List FileRow) (P : DetectParams) (r : FileRow) : Bool :=
  decide (rowKey r ∈ dupCandidateKeys db P.mfs P.mdc) &&
  r.sha256.isNone && stateOk r.state &&
  ((match r.quickHash with
    | some q => decide (q ∈ dupQuickHashes db)
    | none => false) ||
   (decide (r.sizeBytes < P.smallThr) && r.quickHash.isNone &&
     decide (P.mfs ≤ r.sizeBytes))) &&
  pathFilter P.inc P.exc r.pathAbs

/-- `compute_sha256` outcome applied to a row (default SHA-256 path, no
limiter): the small-file one-pass branch also fills a missing quick hash, the
streaming branch hashes the whole file; the batched update uses
`sha256=COALESCE(new, sha256)`, `quick_hash=COALESCE(quick_hash, new)`,
`state='sha_verified'`. -/
def stage2Row (fs : Filesystem) (P : DetectParams) (r : FileRow) : FileRow :=
  match fsLookup fs r.pathAbs with
  | .absent => { r with state := .missing }
  | .readError _ => { r with state := .error }
  | .present bytes =>
      if decide (r.sizeBytes < P.smallThr) && r.quickHash.isNone then
        { r with
            sha256 := some (small_branch_sha_input P.shaChunk bytes),
            quickHash :=
              some (small_branch_quick_input P.qhBytes P.shaChunk r.sizeBytes bytes),
            state := .shaVerified }
      else
        { r with sha256 := some (sha256_file_input P.shaChunk bytes),
                 state := .shaVerified }

/-- The conditional per-row effect of stage 2. -/
def stage2Apply (P : DetectParams) (fs : Filesystem) (db : List FileRow)
    (r : FileRow) : FileRow :=
  if isShaCandidate db P r then stage2Row fs P r else r

/-- Stage 2 over the whole table, candidates materialized on entry. -/
def stage2 (P : DetectParams) (fs : Filesystem) (db : List FileRow) :
    List FileRow :=
  db.map (stage2Apply P fs db)

/-- `UPDATE files SET state='done' WHERE state IN ('quick_hashed',
'sha_verified') AND sha256 IS NOT NULL`. -/
def finalizeRow (r : FileRow) : FileRow :=
  if (r.state = .quickHashed ∨ r.state = .shaVerified) ∧ r.sha256.isSome then
    { r with state := .done }
  else r

def finalizeDb (db : List FileRow) : List FileRow :=
  db.map finalizeRow

/-- Returned statistics of `detect_duplicates` (hashing-relevant slice). -/
structure DetectStats where
  quickHashCount : Nat
  sha256Count : Nat
  filesMissing : Nat
  filesError : Nat
  filesProcessed : Nat
deriving DecidableEq

def countFate (fs : Filesystem) (p : FsFate → Bool) (rows : List FileRow) : Nat :=
  (rows.filter (fun r => p (fsLookup fs r.pathAbs))).length

/-- The materialized `qh_candidates` table. -/
def qhCandidates (P : DetectParams) (db : List FileRow) : List FileRow :=
  db.filter (isQhCandidate db P.mfs P.mdc P.inc P.exc)

/-- The materialized `sha_candidates` table (built after stage 1). -/
def shaCandidates (P : DetectParams) (fs : Filesystem) (db : List FileRow) :
    List FileRow :=
  (stage1 P fs db).filter (isShaCandidate (stage1 P fs db) P)

/-- One default-mode run of `detect_duplicates`: stage 1, stage 2,
finalization, and the counters (`files_processed = quick_hash_count +
sha256_count` as in the final stats assembly). -/
def detect_duplicates_run (P : DetectParams) (fs : Filesystem)
    (db : List FileRow) : List FileRow × DetectStats :=
  (finalizeDb (stage2 P fs (stage1 P fs db)),
    { quickHashCount := countFate fs fateSuccess (qhCandidates P db)
      sha256Count := countFate fs fateSuccess (shaCandidates P fs db)
      filesMissing := countFate fs fateMissing (qhCandidates P db) +
        countFate fs fateMissing (shaCandidates P fs db)
      filesError := countFate fs fateError (qhCandidates P db) +
        countFate fs fateError (shaCandidates P fs db)
      filesProcessed := countFate fs fateSuccess (qhCandidates P db) +
        countFate fs fateSuccess (shaCandidates P fs db) })

/-! ### Candidate-set characterizations -/

theorem mem_dupCandidateKeys (db : List FileRow) (mfs mdc : Nat)
    (k : Nat × String) :
    k ∈ dupCandidateKeys db mfs mdc ↔
      (∃ r ∈ db, stateOk r.state = true ∧ mfs ≤ r.sizeBytes ∧ rowKey r = k) ∧
      mdc ≤ groupCount db mfs k := by
  unfold dupCandidateKeys
  rw [List.mem_filter, List.mem_dedup, List.mem_map]
  constructor
  · rintro ⟨⟨r, hr, hk⟩, hc⟩
    unfold activeMinRows at hr
    rw [List.mem_filter] at hr
    obtain ⟨hrdb, hcond⟩ := hr
    simp only [Bool.and_eq_true, decide_eq_true_eq] at hcond
    exact ⟨⟨r, hrdb, hcond.1, hcond.2, hk⟩, by simpa using hc⟩
  · rintro ⟨⟨r, hrdb, h1, h2, hk⟩, hc⟩
    refine ⟨⟨r, ?_, hk⟩, by simpa using hc⟩
    unfold activeMinRows
    rw [List.mem_filter]
    exact ⟨hrdb, by simp [h1, h2]⟩

/-- C7: a row of the table enters `qh_candidates` iff its `quick_hash` is
null, its state is neither `error` nor `missing`, its size is at least
`min_file_size`, it passes the path-prefix filters, and its `(size, ext)`
group — counted over all rows with good state and sufficient size, with no
path filtering — has at least `min_duplicate_count` members. -/
theorem quick_hash_candidate_iff (db : List FileRow) (mfs mdc : Nat)
    (inc exc : List String) (r : FileRow) (hr : r ∈ db) :
    isQhCandidate db mfs mdc inc exc r = true ↔
      spec_quickHashCandidate db mfs mdc inc exc r := by
  unfold isQhCandidate spec_quickHashCandidate
  simp only [Bool.and_eq_true, decide_eq_true_eq, Option.isNone_iff_eq_none]
  constructor
  · rintro ⟨⟨⟨⟨hmem, hqh⟩, hok⟩, hsz⟩, hfil⟩
    exact ⟨hqh, hok, hsz, hfil,
      ((mem_dupCandidateKeys db mfs mdc _).mp hmem).2⟩
  · rintro ⟨hqh, hok, hsz, hfil, hc⟩
    exact ⟨⟨⟨⟨(mem_dupCandidateKeys db mfs mdc _).mpr
      ⟨⟨r, hr, hok, hsz, rfl⟩, hc⟩, hqh⟩, hok⟩, hsz⟩, hfil⟩

/-- Sample rows for concrete evaluations. -/
def rowA : FileRow :=
  { fileId := 1, pathAbs := "a", ext := some "txt", sizeBytes := 2000,
    state := .pending, quickHash := none, sha256 := none }

def rowB : FileRow :=
  { fileId := 2, pathAbs := "b", ext := some "txt", sizeBytes := 2000,
    state := .pending, quickHash := none, sha256 := none }

def dbAB : List FileRow := [rowA, rowB]

/-- Default-configuration parameters (quick window 256 KiB, small-file
threshold 128 KiB, sha chunk 2 MiB, min size 1024, min group 2, no filters). -/
def paramsD : DetectParams :=
  { qhBytes := 262144, smallThr := 131072, shaChunk := 2097152,
    mfs := 1024, mdc := 2, inc := [], exc := [] }

/-- C7 witness: in a two-row table of same size and extension, the first row
is a quick-hash candidate, and the characterization holds. -/
theorem quick_hash_candidate_iff_witness :
    rowA ∈ dbAB ∧
    (isQhCandidate dbAB 1024 2 [] [] rowA = true ↔
      spec_quickHashCandidate dbAB 1024 2 [] [] rowA) :=
  ⟨by decide, quick_hash_candidate_iff dbAB 1024 2 [] [] rowA (by decide)⟩

/-! ### Back-to-back runs (C6) -/

/-- A filesystem on which both sample rows are missing. -/
def emptyFs : Filesystem := []

/-- C6 counterexample: with two same-size rows whose files are gone, the
first run records 2 missing rows, yet the second run's `files_processed` is 0,
not 2 — failed and missing rows are excluded by the state filter, not
retried. -/
theorem detect_twice_counterexample :
    (detect_duplicates_run paramsD emptyFs dbAB).2.filesMissing +
        (detect_duplicates_run paramsD emptyFs dbAB).2.filesError = 2 ∧
    (detect_duplicates_run paramsD emptyFs
        (detect_duplicates_run paramsD emptyFs dbAB).1).2.filesProcessed = 0 ∧
    ¬ ((detect_duplicates_run paramsD emptyFs
          (detect_duplicates_run paramsD emptyFs dbAB).1).2.filesProcessed
        = (detect_duplicates_run paramsD emptyFs dbAB).2.filesMissing +
          (detect_duplicates_run paramsD emptyFs dbAB).2.filesError) := by
  decide

theorem isQhCandidate_parts {db : List FileRow} {mfs mdc : Nat}
    {inc exc : List String} {r : FileRow}
    (h : isQhCandidate db mfs mdc inc exc r = true) :
    rowKey r ∈ dupCandidateKeys db mfs mdc ∧ r.quickHash = none ∧
    stateOk r.state = true ∧ mfs ≤ r.sizeBytes ∧
    pathFilter inc exc r.pathAbs = true := by
  unfold isQhCandidate at h
  simp only [Bool.and_eq_true, decide_eq_true_eq,
    Option.isNone_iff_eq_none] at h
  tauto

theorem isQhCandidate_of_parts {db : List FileRow} {mfs mdc : Nat}
    {inc exc : List String} {r : FileRow}
    (h1 : rowKey r ∈ dupCandidateKeys db mfs mdc) (h2 : r.quickHash = none)
    (h3 : stateOk r.state = true) (h4 : mfs ≤ r.sizeBytes)
    (h5 : pathFilter inc exc r.pathAbs = true) :
    isQhCandidate db mfs mdc inc exc r = true := by
  unfold isQhCandidate
  simp only [Bool.and_eq_true, decide_eq_true_eq, Option.isNone_iff_eq_none]
  exact ⟨⟨⟨⟨h1, h2⟩, h3⟩, h4⟩, h5⟩

/-- The collision disjunct of `sha_candidates`, in propositional form. -/
def shaDisjunct (db : List FileRow) (P : DetectParams) (r : FileRow) : Prop :=
  (∃ q, r.quickHash = some q ∧ q ∈ dupQuickHashes db) ∨
  (r.sizeBytes < P.smallThr ∧ r.quickHash = none ∧ P.mfs ≤ r.sizeBytes)

theorem isShaCandidate_iff_parts (db : List FileRow) (P : DetectParams)
    (r : FileRow) :
    isShaCandidate db P r = true ↔
      rowKey r ∈ dupCandidateKeys db P.mfs P.mdc ∧ r.sha256 = none ∧
      stateOk r.state = true ∧ shaDisjunct db P r ∧
      pathFilter P.inc P.exc r.pathAbs = true := by
  unfold isShaCandidate shaDisjunct
  simp only [Bool.and_eq_true, Bool.or_eq_true, decide_eq_true_eq,
    Option.isNone_iff_eq_none]
  constructor
  · rintro ⟨⟨⟨⟨hk, hsha⟩, hok⟩, hdis⟩, hfil⟩
    refine ⟨hk, hsha, hok, ?_, hfil⟩
    rcases hdis with hm | hsmall
    · left
      cases hq : r.quickHash with
      | none => rw [hq] at hm; simp at hm
      | some q =>
        rw [hq] at hm
        simp only [decide_eq_true_eq] at hm
        exact ⟨q, rfl, hm⟩
    · right
      exact ⟨hsmall.1.1, hsmall.1.2, hsmall.2⟩
  · rintro ⟨hk, hsha, hok, hdis, hfil⟩
    refine ⟨⟨⟨⟨hk, hsha⟩, hok⟩, ?_⟩, hfil⟩
    rcases hdis with ⟨q, hq, hmem⟩ | ⟨h1, h2, h3⟩
    · left
      rw [hq]
      simpa using hmem
    · right
      exact ⟨⟨h1, h2⟩, h3⟩

theorem mem_dupQuickHashes (db : List FileRow) (q : List Nat) :
    q ∈ dupQuickHashes db ↔ 2 ≤ qhCount db q := by
  unfold dupQuickHashes
  rw [List.mem_filter, List.mem_dedup]
  constructor
  · rintro ⟨_, h⟩
    simpa using h
  · intro h
    refine ⟨?_, by simpa using h⟩
    have hpos : 0 < qhCount db q := lt_of_lt_of_le (by norm_num) h
    unfold qhCount at hpos
    obtain ⟨r, hr⟩ := List.exists_mem_of_length_pos hpos
    rw [List.mem_filter] at hr
    rw [List.mem_filterMap]
    exact ⟨r, hr.1, by simpa using hr.2⟩

/-! ### Per-row preservation facts -/

theorem stage1Row_fields (fs : Filesystem) (qb : Nat) (r : FileRow) :
    (stage1Row fs qb r).pathAbs = r.pathAbs ∧
    (stage1Row fs qb r).sizeBytes = r.sizeBytes ∧
    (stage1Row fs qb r).ext = r.ext ∧
    (stage1Row fs qb r).sha256 = r.sha256 := by
  unfold stage1Row
  cases fsLookup fs r.pathAbs <;> simp

theorem stage1Apply_fields (P : DetectParams) (fs : Filesystem)
    (db : List FileRow) (r : FileRow) :
    (stage1Apply P fs db r).pathAbs = r.pathAbs ∧
    (stage1Apply P fs db r).sizeBytes = r.sizeBytes ∧
    (stage1Apply P fs db r).ext = r.ext ∧
    (stage1Apply P fs db r).sha256 = r.sha256 := by
  unfold stage1Apply
  by_cases h : isQhCandidate db P.mfs P.mdc P.inc P.exc r = true
  · rw [if_pos h]
    exact stage1Row_fields fs P.qhBytes r
  · rw [if_neg h]
    exact ⟨rfl, rfl, rfl, rfl⟩

theorem stage1Apply_stateOk_back (P : DetectParams) (fs : Filesystem)
    (db : List FileRow) (r : FileRow)
    (h : stateOk (stage1Apply P fs db r).state = true) :
    stateOk r.state = true := by
  unfold stage1Apply at h
  by_cases hc : isQhCandidate db P.mfs P.mdc P.inc P.exc r = true
  · exact (isQhCandidate_parts hc).2.2.1
  · rw [if_neg hc] at h
    exact h

theorem stage1Apply_qh_back (P : DetectParams) (fs : Filesystem)
    (db : List FileRow) (r : FileRow)
    (h : (stage1Apply P fs db r).quickHash = none) :
    r.quickHash = none := by
  unfold stage1Apply at h
  by_cases hc : isQhCandidate db P.mfs P.mdc P.inc P.exc r = true
  · rw [if_pos hc] at h
    unfold stage1Row at h
    cases hf : fsLookup fs r.pathAbs <;> rw [hf] at h <;> simpa using h
  · rw [if_neg hc] at h
    exact h

/-- A stage-1 output row that still has a null quick hash and a good state
was not a candidate (and is therefore untouched). -/
theorem stage1Apply_not_cand (P : DetectParams) (fs : Filesystem)
    (db : List FileRow) (r : FileRow)
    (hq : (stage1Apply P fs db r).quickHash = none)
    (hs : stateOk (stage1Apply P fs db r).state = true) :
    isQhCandidate db P.mfs P.mdc P.inc P.exc r = false ∧
    stage1Apply P fs db r = r := by
  by_cases hc : isQhCandidate db P.mfs P.mdc P.inc P.exc r = true
  · exfalso
    unfold stage1Apply at hq hs
    rw [if_pos hc] at hq hs
    unfold stage1Row at hq hs
    cases hf : fsLookup fs r.pathAbs <;> rw [hf] at hq hs
    · simp at hq
    · simp [stateOk] at hs
    · simp [stateOk] at hs
  · refine ⟨by simpa using hc, ?_⟩
    unfold stage1Apply
    rw [if_neg hc]

theorem stage2Row_fields (fs : Filesystem) (P : DetectParams) (r : FileRow) :
    (stage2Row fs P r).pathAbs = r.pathAbs ∧
    (stage2Row fs P r).sizeBytes = r.sizeBytes ∧
    (stage2Row fs P r).ext = r.ext := by
  unfold stage2Row
  cases fsLookup fs r.pathAbs <;> simp
  split <;> simp

theorem stage2Apply_fields (P : DetectParams) (fs : Filesystem)
    (db : List FileRow) (r : FileRow) :
    (stage2Apply P fs db r).pathAbs = r.pathAbs ∧
    (stage2Apply P fs db r).sizeBytes = r.sizeBytes ∧
    (stage2Apply P fs db r).ext = r.ext := by
  unfold stage2Apply
  by_cases h : isShaCandidate db P r = true
  · rw [if_pos h]
    exact stage2Row_fields fs P r
  · rw [if_neg h]
    exact ⟨rfl, rfl, rfl⟩

theorem stage2Apply_stateOk_back (P : DetectParams) (fs : Filesystem)
    (db : List FileRow) (r : FileRow)
    (h : stateOk (stage2Apply P fs db r).state = true) :
    stateOk r.state = true := by
  unfold stage2Apply at h
  by_cases hc : isShaCandidate db P r = true
  · exact ((isShaCandidate_iff_parts db P r).mp hc).2.2.1
  · rw [if_neg hc] at h
    exact h

theorem stage2Apply_qh_back (P : DetectParams) (fs : Filesystem)
    (db : List FileRow) (r : FileRow)
    (h : (stage2Apply P fs db r).quickHash = none) :
    r.quickHash = none := by
  unfold stage2Apply at h
  by_cases hc : isShaCandidate db P r = true
  · rw [if_pos hc] at h
    unfold stage2Row at h
    cases hf : fsLookup fs r.pathAbs <;> rw [hf] at h <;> dsimp only at h
    · rename_i bytes
      by_cases hsml : (decide (r.sizeBytes < P.smallThr) &&
          r.quickHash.isNone) = true
      · rw [if_pos hsml] at h
        simpa using h
      · rw [if_neg hsml] at h
        exact h
    · exact h
    · exact h
  · rw [if_neg hc] at h
    exact h

/-- A stage-2 output row that still has a null `sha256` and a good state was
not a candidate (and is therefore untouched). -/
theorem stage2Apply_not_cand (P : DetectParams) (fs : Filesystem)
    (db : List FileRow) (r : FileRow)
    (hq : (stage2Apply P fs db r).sha256 = none)
    (hs : stateOk (stage2Apply P fs db r).state = true) :
    isShaCandidate db P r = false ∧ stage2Apply P fs db r = r := by
  by_cases hc : isShaCandidate db P r = true
  · exfalso
    unfold stage2Apply at hq hs
    rw [if_pos hc] at hq hs
    unfold stage2Row at hq hs
    cases hf : fsLookup fs r.pathAbs <;> rw [hf] at hq hs <;>
      dsimp only at hq hs
    · by_cases hsml : (decide (r.sizeBytes < P.smallThr) &&
          r.quickHash.isNone) = true
      · rw [if_pos hsml] at hq
        simp at hq
      · rw [if_neg hsml] at hq
        simp at hq
    · simp [stateOk] at hs
    · simp [stateOk] at hs
  · refine ⟨by simpa using hc, ?_⟩
    unfold stage2Apply
    rw [if_neg hc]

theorem finalizeRow_fields (r : FileRow) :
    (finalizeRow r).pathAbs = r.pathAbs ∧
    (finalizeRow r).sizeBytes = r.sizeBytes ∧
    (finalizeRow r).ext = r.ext ∧
    (finalizeRow r).quickHash = r.quickHash ∧
    (finalizeRow r).sha256 = r.sha256 := by
  unfold finalizeRow
  by_cases h : (r.state = .quickHashed ∨ r.state = .shaVerified) ∧
      r.sha256.isSome
  · rw [if_pos h]
    exact ⟨rfl, rfl, rfl, rfl, rfl⟩
  · rw [if_neg h]
    exact ⟨rfl, rfl, rfl, rfl, rfl⟩

theorem finalizeRow_stateOk (r : FileRow) :
    stateOk (finalizeRow r).state = stateOk r.state := by
  unfold finalizeRow
  by_cases h : (r.state = .quickHashed ∨ r.state = .shaVerified) ∧
      r.sha256.isSome
  · rw [if_pos h]
    rcases h.1 with h1 | h1 <;> rw [h1] <;> rfl
  · rw [if_neg h]

theorem finalizeRow_idem (r : FileRow) :
    finalizeRow (finalizeRow r) = finalizeRow r := by
  unfold finalizeRow
  by_cases h : (r.state = .quickHashed ∨ r.state = .shaVerified) ∧
      r.sha256.isSome
  · rw [if_pos h, if_neg]
    rintro ⟨h1 | h1, _⟩ <;> simp at h1
  · rw [if_neg h, if_neg h]

/-! ### Counting transfer along the pipeline -/

theorem groupCount_map_le (db : List FileRow) (g : FileRow → FileRow)
    (hfields : ∀ r ∈ db, (g r).sizeBytes = r.sizeBytes ∧ (g r).ext = r.ext)
    (hstate : ∀ r ∈ db, stateOk (g r).state = true → stateOk r.state = true)
    (mfs : Nat) (k : Nat × String) :
    groupCount (db.map g) mfs k ≤ groupCount db mfs k := by
  unfold groupCount
  rw [← List.countP_eq_length_filter, ← List.countP_eq_length_filter,
    List.countP_map]
  apply List.countP_mono_left
  intro r hr h
  simp only [Function.comp_apply, Bool.and_eq_true, decide_eq_true_eq] at h ⊢
  obtain ⟨⟨hok, hsz⟩, hkey⟩ := h
  obtain ⟨hsize, hext⟩ := hfields r hr
  refine ⟨⟨hstate r hr hok, by omega⟩, ?_⟩
  unfold rowKey extKey at hkey ⊢
  rw [hsize, hext] at hkey
  exact hkey

theorem qhCount_map_eq (db : List FileRow) (g : FileRow → FileRow)
    (hqh : ∀ r ∈ db, (g r).quickHash = r.quickHash) (q : List Nat) :
    qhCount (db.map g) q = qhCount db q := by
  unfold qhCount
  rw [← List.countP_eq_length_filter, ← List.countP_eq_length_filter,
    List.countP_map]
  apply List.countP_congr
  intro r hr
  simp only [Function.comp_apply, decide_eq_true_eq]
  rw [hqh r hr]

/-! ### No quick-hash-less row survives into the SHA candidate set when both
stages run -/

/-- After stage 1, any `sha_candidates` member has a non-null `quick_hash`:
a row with null quick hash and a good state would have been a quick-hash
candidate itself (same grouping gate), so stage 1 either filled its hash or
spoiled its state. -/
theorem sha_candidate_qh_some (P : DetectParams) (fs : Filesystem)
    (db : List FileRow) (y : FileRow) (hy : y ∈ stage1 P fs db)
    (hc : isShaCandidate (stage1 P fs db) P y = true) :
    y.quickHash ≠ none := by
  intro hqnone
  obtain ⟨hk, _, hok, hdis, hfil⟩ :=
    (isShaCandidate_iff_parts (stage1 P fs db) P y).mp hc
  have hsmall : y.sizeBytes < P.smallThr ∧ y.quickHash = none ∧
      P.mfs ≤ y.sizeBytes := by
    rcases hdis with ⟨q, hq, _⟩ | h
    · rw [hqnone] at hq
      exact absurd hq (by simp)
    · exact h
  unfold stage1 at hy
  obtain ⟨r, hrdb, hry⟩ := List.mem_map.mp hy
  have hnc := stage1Apply_not_cand P fs db r (by rw [hry]; exact hqnone)
    (by rw [hry]; exact hok)
  have hyr : y = r := by rw [← hry, hnc.2]
  subst hyr
  have hgc3 : P.mdc ≤ groupCount (stage1 P fs db) P.mfs (rowKey y) :=
    ((mem_dupCandidateKeys _ _ _ _).mp hk).2
  have hgc : P.mdc ≤ groupCount db P.mfs (rowKey y) := by
    refine le_trans hgc3 ?_
    unfold stage1
    exact groupCount_map_le db (stage1Apply P fs db)
      (fun r hr => ⟨(stage1Apply_fields P fs db r).2.1,
        (stage1Apply_fields P fs db r).2.2.1⟩)
      (fun r hr => stage1Apply_stateOk_back P fs db r) P.mfs (rowKey y)
  have hcand : isQhCandidate db P.mfs P.mdc P.inc P.exc y = true :=
    isQhCandidate_of_parts
      ((mem_dupCandidateKeys _ _ _ _).mpr
        ⟨⟨y, hrdb, hok, hsmall.2.2, rfl⟩, hgc⟩)
      hqnone hok hsmall.2.2 hfil
  rw [hcand] at hnc
  exact absurd hnc.1 (by simp)

/-- Under the previous fact, stage 2 never changes the `quick_hash` column. -/
theorem stage2Apply_qh_eq (P : DetectParams) (fs : Filesystem)
    (db : List FileRow) (y : FileRow) (hy : y ∈ stage1 P fs db) :
    (stage2Apply P fs (stage1 P fs db) y).quickHash = y.quickHash := by
  unfold stage2Apply
  by_cases hc : isShaCandidate (stage1 P fs db) P y = true
  · rw [if_pos hc]
    have hq := sha_candidate_qh_some P fs db y hy hc
    unfold stage2Row
    cases hf : fsLookup fs y.pathAbs <;> dsimp only
    · rw [if_neg]
      simp only [Bool.and_eq_true, Option.isNone_iff_eq_none]
      intro hcontra
      exact hq hcontra.2
  · rw [if_neg hc]

theorem rowKey_eq_of_fields {a b : FileRow} (hs : a.sizeBytes = b.sizeBytes)
    (he : a.ext = b.ext) : rowKey a = rowKey b := by
  unfold rowKey extKey
  rw [hs, he]

theorem groupCount_stage1_le (P : DetectParams) (fs : Filesystem)
    (db : List FileRow) (mfs : Nat) (k : Nat × String) :
    groupCount (stage1 P fs db) mfs k ≤ groupCount db mfs k := by
  unfold stage1
  exact groupCount_map_le db (stage1Apply P fs db)
    (fun r _ => ⟨(stage1Apply_fields P fs db r).2.1,
      (stage1Apply_fields P fs db r).2.2.1⟩)
    (fun r _ => stage1Apply_stateOk_back P fs db r) mfs k

theorem groupCount_finalize_stage2_le (P : DetectParams) (fs : Filesystem)
    (dbx : List FileRow) (mfs : Nat) (k : Nat × String) :
    groupCount (finalizeDb (stage2 P fs dbx)) mfs k ≤ groupCount dbx mfs k := by
  unfold finalizeDb stage2
  rw [List.map_map]
  refine groupCount_map_le dbx _ (fun r _ => ?_) (fun r _ h => ?_) mfs k
  · simp only [Function.comp_apply]
    refine ⟨?_, ?_⟩
    · rw [(finalizeRow_fields _).2.1, (stage2Apply_fields P fs dbx r).2.1]
    · rw [(finalizeRow_fields _).2.2.1, (stage2Apply_fields P fs dbx r).2.2]
  · simp only [Function.comp_apply] at h
    rw [finalizeRow_stateOk] at h
    exact stage2Apply_stateOk_back P fs dbx r h

theorem groupCount_run_le (P : DetectParams) (fs : Filesystem)
    (db : List FileRow) (mfs : Nat) (k : Nat × String) :
    groupCount (detect_duplicates_run P fs db).1 mfs k
      ≤ groupCount db mfs k :=
  le_trans (groupCount_finalize_stage2_le P fs (stage1 P fs db) mfs k)
    (groupCount_stage1_le P fs db mfs k)

theorem qhCount_run_eq (P : DetectParams) (fs : Filesystem) (db : List FileRow)
    (q : List Nat) :
    qhCount (detect_duplicates_run P fs db).1 q
      = qhCount (stage1 P fs db) q := by
  show qhCount (finalizeDb (stage2 P fs (stage1 P fs db))) q = _
  unfold finalizeDb stage2
  rw [List.map_map]
  refine qhCount_map_eq _ _ (fun y hy => ?_) q
  simp only [Function.comp_apply]
  rw [(finalizeRow_fields _).2.2.2.1, stage2Apply_qh_eq P fs db y hy]

/-- The output of a full run contains no quick-hash candidate for a second
run. -/
theorem detect_run_no_qh_candidate (P : DetectParams) (fs : Filesystem)
    (db : List FileRow) :
    ∀ x ∈ (detect_duplicates_run P fs db).1,
      ¬ (isQhCandidate (detect_duplicates_run P fs db).1
          P.mfs P.mdc P.inc P.exc x = true) := by
  intro x hx hc
  obtain ⟨hk, hqx, hokx, hszx, hfilx⟩ := isQhCandidate_parts hc
  obtain ⟨y2, hy2, hxy⟩ := List.mem_map.mp hx
  obtain ⟨y1, hy1, hy21⟩ := List.mem_map.mp hy2
  obtain ⟨r, hrdb, hy1r⟩ := List.mem_map.mp hy1
  have hq2 : y2.quickHash = none := by
    rw [← (finalizeRow_fields y2).2.2.2.1, hxy]
    exact hqx
  have hok2 : stateOk y2.state = true := by
    rw [← finalizeRow_stateOk, hxy]
    exact hokx
  have hq1 : y1.quickHash = none :=
    stage2Apply_qh_back P fs _ y1 (by rw [hy21]; exact hq2)
  have hok1 : stateOk y1.state = true :=
    stage2Apply_stateOk_back P fs _ y1 (by rw [hy21]; exact hok2)
  have hnc := stage1Apply_not_cand P fs db r (by rw [hy1r]; exact hq1)
    (by rw [hy1r]; exact hok1)
  have hy1eq : y1 = r := by rw [← hy1r, hnc.2]
  have hpath : x.pathAbs = y1.pathAbs := by
    rw [← hxy, (finalizeRow_fields y2).1, ← hy21,
      (stage2Apply_fields P fs _ y1).1]
  have hsize : x.sizeBytes = y1.sizeBytes := by
    rw [← hxy, (finalizeRow_fields y2).2.1, ← hy21,
      (stage2Apply_fields P fs _ y1).2.1]
  have hext : x.ext = y1.ext := by
    rw [← hxy, (finalizeRow_fields y2).2.2.1, ← hy21,
      (stage2Apply_fields P fs _ y1).2.2]
  have hkeyeq : rowKey x = rowKey y1 := rowKey_eq_of_fields hsize hext
  have hgc : P.mdc ≤ groupCount db P.mfs (rowKey y1) := by
    have h1 := ((mem_dupCandidateKeys _ _ _ _).mp hk).2
    rw [hkeyeq] at h1
    exact le_trans h1 (groupCount_run_le P fs db P.mfs (rowKey y1))
  have hsz1 : P.mfs ≤ y1.sizeBytes := by
    rw [← hsize]
    exact hszx
  have hcand : isQhCandidate db P.mfs P.mdc P.inc P.exc y1 = true := by
    refine isQhCandidate_of_parts ?_ hq1 hok1 hsz1 ?_
    · exact (mem_dupCandidateKeys _ _ _ _).mpr
        ⟨⟨y1, hy1eq ▸ hrdb, hok1, hsz1, rfl⟩, hgc⟩
    · rw [← hpath]
      exact hfilx
  rw [hy1eq] at hcand
  rw [hcand] at hnc
  exact absurd hnc.1 (by simp)

/-- The output of a full run contains no SHA candidate for a second run. -/
theorem detect_run_no_sha_candidate (P : DetectParams) (fs : Filesystem)
    (db : List FileRow) :
    ∀ x ∈ (detect_duplicates_run P fs db).1,
      ¬ (isShaCandidate (detect_duplicates_run P fs db).1 P x = true) := by
  intro x hx hc
  obtain ⟨hk, hshax, hokx, hdisx, hfilx⟩ :=
    (isShaCandidate_iff_parts _ P x).mp hc
  obtain ⟨y2, hy2, hxy⟩ := List.mem_map.mp hx
  obtain ⟨y1, hy1, hy21⟩ := List.mem_map.mp hy2
  have hsha2 : y2.sha256 = none := by
    rw [← (finalizeRow_fields y2).2.2.2.2, hxy]
    exact hshax
  have hok2 : stateOk y2.state = true := by
    rw [← finalizeRow_stateOk, hxy]
    exact hokx
  have hnc := stage2Apply_not_cand P fs _ y1 (by rw [hy21]; exact hsha2)
    (by rw [hy21]; exact hok2)
  have hy21eq : y2 = y1 := by rw [← hy21, hnc.2]
  have hxy1 : finalizeRow y1 = x := by rw [← hy21eq, hxy]
  have hpath : x.pathAbs = y1.pathAbs := by
    rw [← hxy1, (finalizeRow_fields y1).1]
  have hsize : x.sizeBytes = y1.sizeBytes := by
    rw [← hxy1, (finalizeRow_fields y1).2.1]
  have hext : x.ext = y1.ext := by
    rw [← hxy1, (finalizeRow_fields y1).2.2.1]
  have hqh : x.quickHash = y1.quickHash := by
    rw [← hxy1, (finalizeRow_fields y1).2.2.2.1]
  have hsha1 : y1.sha256 = none := by
    rw [← (finalizeRow_fields y1).2.2.2.2, hxy1]
    exact hshax
  have hok1 : stateOk y1.state = true := by
    rw [← hy21eq]
    exact hok2
  have hkeyeq : rowKey x = rowKey y1 := rowKey_eq_of_fields hsize hext
  have hsz1 : P.mfs ≤ y1.sizeBytes := by
    obtain ⟨⟨w, _, _, hwsz, hwkey⟩, _⟩ := (mem_dupCandidateKeys _ _ _ _).mp hk
    have hw1 : (rowKey w).1 = w.sizeBytes := rfl
    have hy1fst : (rowKey y1).1 = y1.sizeBytes := rfl
    rw [hwkey, hkeyeq, hy1fst] at hw1
    omega
  have hgc1 : P.mdc ≤ groupCount (stage1 P fs db) P.mfs (rowKey y1) := by
    have h1 := ((mem_dupCandidateKeys _ _ _ _).mp hk).2
    rw [hkeyeq] at h1
    exact le_trans h1
      (groupCount_finalize_stage2_le P fs (stage1 P fs db) P.mfs (rowKey y1))
  have hcand : isShaCandidate (stage1 P fs db) P y1 = true := by
    refine (isShaCandidate_iff_parts _ P y1).mpr
      ⟨(mem_dupCandidateKeys _ _ _ _).mpr
        ⟨⟨y1, hy1, hok1, hsz1, rfl⟩, hgc1⟩, hsha1, hok1, ?_, ?_⟩
    · rcases hdisx with ⟨q, hxq, hqmem⟩ | ⟨h1, h2, h3⟩
      · left
        refine ⟨q, by rw [← hqh]; exact hxq, ?_⟩
        rw [mem_dupQuickHashes] at hqmem ⊢
        rw [← qhCount_run_eq P fs db q]
        exact hqmem
      · right
        exact ⟨by rw [← hsize]; exact h1, by rw [← hqh]; exact h2, hsz1⟩
    · rw [← hpath]
      exact hfilx
  rw [hcand] at hnc
  exact absurd hnc.1 (by simp)

theorem finalizeDb_fixed (l : List FileRow) :
    ∀ x ∈ finalizeDb l, finalizeRow x = x := by
  intro x hx
  obtain ⟨y, _, hxy⟩ := List.mem_map.mp hx
  rw [← hxy]
  exact finalizeRow_idem y

/-- C6 (amended): because failed and missing rows are excluded from every
candidate set by the state filter (not retried), a second back-to-back run on
an unchanged filesystem finds no quick-hash and no SHA candidates at all: its
`files_processed` is 0 — not the first run's failure count — and it leaves
the table byte-for-byte unchanged (so in particular the `done` finalization
of the second run rewrites nothing). -/
theorem detect_duplicates_second_run_noop (P : DetectParams) (fs : Filesystem)
    (db : List FileRow) :
    (detect_duplicates_run P fs (detect_duplicates_run P fs db).1).2.filesProcessed
        = 0 ∧
    (detect_duplicates_run P fs (detect_duplicates_run P fs db).1).1
        = (detect_duplicates_run P fs db).1 := by
  have hA := detect_run_no_qh_candidate P fs db
  have hB := detect_run_no_sha_candidate P fs db
  have hq2nil : qhCandidates P (detect_duplicates_run P fs db).1 = [] := by
    unfold qhCandidates
    exact List.filter_eq_nil_iff.mpr hA
  have hpt1 : ∀ r ∈ (detect_duplicates_run P fs db).1,
      stage1Apply P fs (detect_duplicates_run P fs db).1 r = id r := by
    intro r hr
    unfold stage1Apply
    rw [if_neg (hA r hr)]
    rfl
  have hst1 : stage1 P fs (detect_duplicates_run P fs db).1
      = (detect_duplicates_run P fs db).1 := by
    unfold stage1
    rw [List.map_congr_left hpt1, List.map_id]
  have hsha2nil : shaCandidates P fs (detect_duplicates_run P fs db).1 = [] := by
    unfold shaCandidates
    rw [hst1]
    exact List.filter_eq_nil_iff.mpr hB
  have hpt2 : ∀ r ∈ (detect_duplicates_run P fs db).1,
      stage2Apply P fs (detect_duplicates_run P fs db).1 r = id r := by
    intro r hr
    unfold stage2Apply
    rw [if_neg (hB r hr)]
    rfl
  have hst2 : stage2 P fs (detect_duplicates_run P fs db).1
      = (detect_duplicates_run P fs db).1 := by
    unfold stage2
    rw [List.map_congr_left hpt2, List.map_id]
  have hpt3 : ∀ r ∈ (detect_duplicates_run P fs db).1, finalizeRow r = id r :=
    fun r hr => finalizeDb_fixed _ r hr
  have hfin : finalizeDb (detect_duplicates_run P fs db).1
      = (detect_duplicates_run P fs db).1 := by
    unfold finalizeDb
    rw [List.map_congr_left hpt3, List.map_id]
  constructor
  · show countFate fs fateSuccess
        (qhCandidates P (detect_duplicates_run P fs db).1) +
      countFate fs fateSuccess
        (shaCandidates P fs (detect_duplicates_run P fs db).1) = 0
    rw [hq2nil, hsha2nil]
    rfl
  · show finalizeDb (stage2 P fs (stage1 P fs (detect_duplicates_run P fs db).1))
        = (detect_duplicates_run P fs db).1
    rw [hst1, hst2, hfin]

/-! ## Configuration model (`catalog/config.py`, `DedupeConfig`)

`DedupeConfig` is a pydantic model declaring exactly five fields (`enabled`,
`max_workers`, `small_file_threshold`, `quick_hash_bytes`,
`sha_chunk_bytes`), each with a default.  Validation of a document ignores
unknown keys and fills missing recognized keys with the defaults; reading an
attribute that is not a declared field raises `AttributeError`.
`detect_duplicates` reads `cfg.dedupe.min_file_size` and
`cfg.dedupe.min_duplicate_count` before doing anything else. -/

structure DedupeConfig where
  enabled : Bool
  max_workers : Int
  small_file_threshold : Int
  quick_hash_bytes : Int
  sha_chunk_bytes : Int
deriving DecidableEq

/-- Integer lookup in a configuration document with a default. -/
def lookupInt (doc : List (String × Int)) (k : String) (dflt : Int) : Int :=
  match doc.find? (fun e => e.1 == k) with
  | some e => e.2
  | none => dflt

/-- Pydantic validation of the `dedupe:` section against the fields declared
in `config.py` (defaults: enabled, 8 workers, 131072, 262144, 2097152). -/
def validateDedupeConfig (doc : List (String × Int)) : DedupeConfig :=
  { enabled := lookupInt doc "enabled" 1 ≠ 0
    max_workers := lookupInt doc "max_workers" 8
    small_file_threshold := lookupInt doc "small_file_threshold" 131072
    quick_hash_bytes := lookupInt doc "quick_hash_bytes" 262144
    sha_chunk_bytes := lookupInt doc "sha_chunk_bytes" 2097152 }

/-- Python attribute access on the validated model: `some` for the five
declared fields, `none` (AttributeError) for anything else. -/
def dedupeConfigGetattr (cfg : DedupeConfig) (attr : String) : Option Int :=
  if attr = "enabled" then some (if cfg.enabled then 1 else 0)
  else if attr = "max_workers" then some cfg.max_workers
  else if attr = "small_file_threshold" then some cfg.small_file_threshold
  else if attr = "quick_hash_bytes" then some cfg.quick_hash_bytes
  else if attr = "sha_chunk_bytes" then some cfg.sha_chunk_bytes
  else none

/-- The prologue of `detect_duplicates` (`min_file_size =
cfg.dedupe.min_file_size; min_duplicate_count =
cfg.dedupe.min_duplicate_count`): succeeds with the two gating values or
aborts with `AttributeError`. -/
def detectDuplicatesReadFilters (cfg : DedupeConfig) :
    Except String (Int × Int) :=
  match dedupeConfigGetattr cfg "min_file_size",
      dedupeConfigGetattr cfg "min_duplicate_count" with
  | some a, some b => .ok (a, b)
  | _, _ => .error "AttributeError"

/-- C8 (code bug): `DedupeConfig` in `config.py` declares no
`min_file_size` or `min_duplicate_count` field, so for every configuration
document — the empty one included — attribute access yields `AttributeError`
and `detect_duplicates` aborts instead of running with the documented
defaults 1024 and 2. -/
theorem dedupe_config_missing_min_fields (doc : List (String × Int)) :
    dedupeConfigGetattr (validateDedupeConfig doc) "min_file_size" = none ∧
    dedupeConfigGetattr (validateDedupeConfig doc) "min_duplicate_count"
      = none ∧
    detectDuplicatesReadFilters (validateDedupeConfig doc)
      = .error "AttributeError" ∧
    ¬ (detectDuplicatesReadFilters (validateDedupeConfig []) = .ok (1024, 2)) := by
  refine ⟨rfl, rfl, rfl, ?_⟩
  intro h
  rw [show detectDuplicatesReadFilters (validateDedupeConfig [])
      = Except.error "AttributeError" from rfl] at h
  exact Except.noConfusion h

/-! ## Pruner (`catalog/dedupe.py`, `prune_hash_duplicates`)

A duplicate group is the SQL detail query's row list for one `sha256` (state
already filtered, length > 1 enforced by the caller loop, `file_id` unique).
Each member carries the parsed `parse_ts(mtime_utc)` value as its `mtime`.
The keeper is `sorted(candidates, key=(mtime', path.lower(), file_id))[0]`
where candidates are the members whose file exists on disk, falling back to
all members; `mtime'` is `mtime` for keep-strategy `oldest` and `-mtime` for
`newest`.  In execute mode each loser is unlinked (an `unlinkFails` set
models `path_obj.unlink()` raising) and, on success or when already missing,
its catalog row is deleted; an unlink failure is appended to the error list
and leaves the row in place. -/

structure PruneMember where
  fileId : Nat
  path : String
  sizeB : Nat
  mtime : Int
deriving DecidableEq

/-- First component of the sort key: `-parse_ts(mtime)` for keep-strategy
`newest`, `parse_ts(mtime)` for `oldest`. -/
def mtimeKey (keepNewest : Bool) (m : PruneMember) : Int :=
  if keepNewest then -m.mtime else m.mtime

/-- Strict comparison under `sorted(...)`'s key tuple
`(mtime', path.lower(), file_id)`. -/
def pruneKeyLt (keepNewest : Bool) (a b : PruneMember) : Bool :=
  if mtimeKey keepNewest a ≠ mtimeKey keepNewest b then
    decide (mtimeKey keepNewest a < mtimeKey keepNewest b)
  else if a.path.toLower ≠ b.path.toLower then
    decide (a.path.toLower < b.path.toLower)
  else decide (a.fileId < b.fileId)

/-- `sorted(candidates, key=...)[0]`: the earliest member that no other
member strictly precedes (Python's sort is stable and the fold keeps the
first among key-equal members). -/
def selectKeeper (keepNewest : Bool) : List PruneMember → Option PruneMember
  | [] => none
  | m :: rest =>
      some (rest.foldl (fun best x => if pruneKeyLt keepNewest x best then x
        else best) m)

/-- `existing = [m for m in members if Path(m.path).exists()]; candidates =
existing or members`. -/
def candidateSet (fsP : List String) (rows : List PruneMember) :
    List PruneMember :=
  if (rows.filter (fun m => decide (m.path ∈ fsP))).isEmpty then rows
  else rows.filter (fun m => decide (m.path ∈ fsP))

/-- A planned/processed loser entry. -/
structure LoserEntry where
  fileId : Nat
  path : String
  sizeB : Nat
  status : String
  err : Option String
deriving DecidableEq

/-- Processing of one loser: dry run only plans; in execute mode, a file on
disk is unlinked (failing when the filesystem refuses), and the catalog row
is deleted exactly when the unlink succeeded or the file was already
missing. -/
def processLoser (dryRun : Bool) (fsP unlinkFails : List String)
    (m : PruneMember) : LoserEntry :=
  if dryRun then ⟨m.fileId, m.path, m.sizeB, "would-delete", none⟩
  else if decide (m.path ∈ fsP) then
    if decide (m.path ∈ unlinkFails) then
      ⟨m.fileId, m.path, m.sizeB, "error",
        some ("Failed to delete " ++ m.path)⟩
    else ⟨m.fileId, m.path, m.sizeB, "deleted +db-pruned", none⟩
  else ⟨m.fileId, m.path, m.sizeB, "missing +db-pruned", none⟩

/-- Whether the entry's catalog row was deleted. -/
def loserRemoved (e : LoserEntry) : Bool :=
  e.status == "deleted +db-pruned" || e.status == "missing +db-pruned"

structure GroupPlan where
  keeper : PruneMember
  duplicates : List LoserEntry
deriving DecidableEq

/-- The loop `for rec in members: if rec.file_id == keeper.file_id: continue;
duplicates.append(rec)`. -/
def pruneLosers (rows : List PruneMember) (keeper : PruneMember) :
    List PruneMember :=
  rows.filter (fun m => decide (m.fileId ≠ keeper.fileId))

/-- One iteration of the group loop: skip groups that lost their multiplicity
(`len(rows) <= 1`) or have no losers, otherwise select the keeper and process
every other member in order. -/
def pruneGroup (dryRun keepNewest : Bool) (fsP unlinkFails : List String)
    (rows : List PruneMember) : Option GroupPlan :=
  if rows.length ≤ 1 then none
  else
    match selectKeeper keepNewest (candidateSet fsP rows) with
    | none => none
    | some keeper =>
        if (pruneLosers rows keeper).isEmpty then none
        else some ⟨keeper,
          (pruneLosers rows keeper).map (processLoser dryRun fsP unlinkFails)⟩

/-- Row ids the group's processing deletes from the catalog. -/
def planRemovedIds (g : GroupPlan) : List Nat :=
  (g.duplicates.filter loserRemoved).map LoserEntry.fileId

/-- The group's rows still present in the catalog after its processing. -/
def pruneSurvivors (dryRun keepNewest : Bool) (fsP unlinkFails : List String)
    (rows : List PruneMember) : List PruneMember :=
  match pruneGroup dryRun keepNewest fsP unlinkFails rows with
  | none => rows
  | some plan =>
      rows.filter (fun m => !(decide (m.fileId ∈ planRemovedIds plan)))

/-- The whole prune: every duplicate group processed in order. -/
def prune_hash_duplicates_plans (dryRun keepNewest : Bool)
    (fsP unlinkFails : List String) (groups : List (List PruneMember)) :
    List GroupPlan :=
  groups.filterMap (pruneGroup dryRun keepNewest fsP unlinkFails)

/-- `stats["errors"]` accumulated over the run. -/
def pruneErrors (plans : List GroupPlan) : List String :=
  (plans.map (fun p => p.duplicates.filterMap (fun e => e.err))).flatten

/-- All catalog rows deleted over the run. -/
def pruneRemovedIds (plans : List GroupPlan) : List Nat :=
  (plans.map planRemovedIds).flatten

theorem pruneKeyLt_iff (kn : Bool) (a b : PruneMember) :
    pruneKeyLt kn a b = true ↔
      (mtimeKey kn a < mtimeKey kn b ∨
        (mtimeKey kn a = mtimeKey kn b ∧
          (a.path.toLower < b.path.toLower ∨
            (a.path.toLower = b.path.toLower ∧ a.fileId < b.fileId)))) := by
  unfold pruneKeyLt
  by_cases hm : mtimeKey kn a = mtimeKey kn b
  · rw [if_neg (by simp [hm])]
    by_cases hp : a.path.toLower = b.path.toLower
    · rw [if_neg (by simp [hp])]
      simp [hm, hp, lt_irrefl]
    · rw [if_pos hp]
      simp [hm, hp, lt_irrefl]
  · rw [if_pos hm]
    simp only [decide_eq_true_eq]
    constructor
    · intro h
      exact Or.inl h
    · rintro (h | ⟨heq, _⟩)
      · exact h
      · exact absurd heq hm

theorem pruneKeyLt_irrefl (kn : Bool) (a : PruneMember) :
    pruneKeyLt kn a a = false := by
  rw [Bool.eq_false_iff]
  intro h
  rw [pruneKeyLt_iff] at h
  rcases h with h | ⟨_, h | ⟨_, h⟩⟩ <;> exact absurd h (lt_irrefl _)

theorem pruneKeyLt_trans (kn : Bool) (a b c : PruneMember)
    (h1 : pruneKeyLt kn a b = true) (h2 : pruneKeyLt kn b c = true) :
    pruneKeyLt kn a c = true := by
  rw [pruneKeyLt_iff] at h1 h2 ⊢
  rcases h1 with h1 | ⟨h1e, h1r⟩
  · rcases h2 with h2 | ⟨h2e, _⟩
    · exact Or.inl (lt_trans h1 h2)
    · exact Or.inl (h2e ▸ h1)
  · rcases h2 with h2 | ⟨h2e, h2r⟩
    · exact Or.inl (h1e ▸ h2)
    · refine Or.inr ⟨h1e.trans h2e, ?_⟩
      rcases h1r with h1p | ⟨h1pe, h1i⟩
      · rcases h2r with h2p | ⟨h2pe, _⟩
        · exact Or.inl (lt_trans h1p h2p)
        · exact Or.inl (h2pe ▸ h1p)
      · rcases h2r with h2p | ⟨h2pe, h2i⟩
        · exact Or.inl (h1pe ▸ h2p)
        · exact Or.inr ⟨h1pe.trans h2pe, lt_trans h1i h2i⟩

theorem pruneKeyLt_total (kn : Bool) (a b : PruneMember)
    (hne : a.fileId ≠ b.fileId) :
    pruneKeyLt kn a b = true ∨ pruneKeyLt kn b a = true := by
  rw [pruneKeyLt_iff, pruneKeyLt_iff]
  rcases lt_trichotomy (mtimeKey kn a) (mtimeKey kn b) with h | h | h
  · exact Or.inl (Or.inl h)
  · rcases lt_trichotomy a.path.toLower b.path.toLower with hp | hp | hp
    · exact Or.inl (Or.inr ⟨h, Or.inl hp⟩)
    · rcases Nat.lt_or_ge a.fileId b.fileId with hi | hi
      · exact Or.inl (Or.inr ⟨h, Or.inr ⟨hp, hi⟩⟩)
      · have : b.fileId < a.fileId := by omega
        exact Or.inr (Or.inr ⟨h.symm, Or.inr ⟨hp.symm, this⟩⟩)
    · exact Or.inr (Or.inr ⟨h.symm, Or.inl hp⟩)
  · exact Or.inr (Or.inl h)

/-- The `sorted(...)[0]` fold returns a member of the list that strictly
precedes every other member under the key ordering (given key-distinct ids). -/
theorem foldl_keeper_spec (kn : Bool) :
    ∀ (rest : List PruneMember) (b : PruneMember),
      (∀ x ∈ b :: rest, ∀ y ∈ b :: rest, x ≠ y → x.fileId ≠ y.fileId) →
      (rest.foldl (fun best x => if pruneKeyLt kn x best then x else best) b
          ∈ b :: rest ∧
        ∀ x ∈ b :: rest,
          x = rest.foldl (fun best x => if pruneKeyLt kn x best then x
            else best) b ∨
          pruneKeyLt kn
            (rest.foldl (fun best x => if pruneKeyLt kn x best then x
              else best) b) x = true) := by
  intro rest
  induction rest with
  | nil =>
    intro b _
    refine ⟨List.mem_cons_self _ _, ?_⟩
    intro x hx
    rcases List.mem_cons.mp hx with rfl | hx
    · exact Or.inl rfl
    · cases hx
  | cons y rest ih =>
    intro b hU
    rw [List.foldl_cons]
    by_cases hlt : pruneKeyLt kn y b = true
    · rw [if_pos hlt]
      obtain ⟨hmem, hmin⟩ := ih y (by
        intro u hu v hv
        exact hU u (List.mem_cons_of_mem _ hu) v (List.mem_cons_of_mem _ hv))
      refine ⟨List.mem_cons_of_mem _ hmem, ?_⟩
      intro x hx
      rcases List.mem_cons.mp hx with rfl | hx
      · rcases hmin y (List.mem_cons_self _ _) with he | hltr
        · right
          rw [← he]
          exact hlt
        · right
          exact pruneKeyLt_trans kn _ y x hltr hlt
      · exact hmin x hx
    · rw [if_neg hlt]
      have hsub : ∀ z ∈ b :: rest, z ∈ b :: y :: rest := by
        intro z hz
        rcases List.mem_cons.mp hz with rfl | hz
        · exact List.mem_cons_self _ _
        · exact List.mem_cons_of_mem _ (List.mem_cons_of_mem _ hz)
      obtain ⟨hmem, hmin⟩ := ih b
        (fun u hu v hv => hU u (hsub u hu) v (hsub v hv))
      refine ⟨hsub _ hmem, ?_⟩
      intro x hx
      rcases List.mem_cons.mp hx with rfl | hx
      · exact hmin x (List.mem_cons_self _ _)
      rcases List.mem_cons.mp hx with rfl | hx
      · by_cases hyb : x = b
        · subst hyb
          exact hmin x (List.mem_cons_self _ _)
        · have hids : x.fileId ≠ b.fileId :=
            hU x (List.mem_cons_of_mem _ (List.mem_cons_self _ _)) b
              (List.mem_cons_self _ _) hyb
          have hb : pruneKeyLt kn b x = true := by
            rcases pruneKeyLt_total kn x b hids with h | h
            · exact absurd h hlt
            · exact h
          rcases hmin b (List.mem_cons_self _ _) with he | hltr
          · right
            rw [← he]
            exact hb
          · right
            exact pruneKeyLt_trans kn _ b x hltr hb
      · exact hmin x (List.mem_cons_of_mem _ hx)

theorem selectKeeper_spec (kn : Bool) (l : List PruneMember) (k : PruneMember)
    (hl : selectKeeper kn l = some k)
    (hU : ∀ x ∈ l, ∀ y ∈ l, x ≠ y → x.fileId ≠ y.fileId) :
    k ∈ l ∧ ∀ x ∈ l, x = k ∨ pruneKeyLt kn k x = true := by
  cases l with
  | nil => exact absurd hl (by simp [selectKeeper])
  | cons m rest =>
    have hk : k = rest.foldl (fun best x => if pruneKeyLt kn x best then x
        else best) m := by
      have := hl
      unfold selectKeeper at this
      exact (Option.some.injEq _ _).mp this.symm
    obtain ⟨hmem, hmin⟩ := foldl_keeper_spec kn rest m hU
    subst hk
    exact ⟨hmem, hmin⟩

theorem pruneGroup_spec (d kn : Bool) (fsP uf : List String)
    (rows : List PruneMember) (plan : GroupPlan)
    (h : pruneGroup d kn fsP uf rows = some plan) :
    1 < rows.length ∧
    selectKeeper kn (candidateSet fsP rows) = some plan.keeper ∧
    plan.duplicates
      = (pruneLosers rows plan.keeper).map (processLoser d fsP uf) := by
  unfold pruneGroup at h
  by_cases h1 : rows.length ≤ 1
  · rw [if_pos h1] at h
    exact absurd h (by simp)
  · rw [if_neg h1] at h
    cases hk : selectKeeper kn (candidateSet fsP rows) with
    | none =>
      rw [hk] at h
      exact absurd h (by simp)
    | some keeper =>
      rw [hk] at h
      dsimp only at h
      by_cases he : (pruneLosers rows keeper).isEmpty = true
      · rw [if_pos he] at h
        exact absurd h (by simp)
      · rw [if_neg he] at h
        have hp : plan = ⟨keeper,
            (pruneLosers rows keeper).map (processLoser d fsP uf)⟩ :=
          ((Option.some.injEq _ _).mp h).symm
        subst hp
        exact ⟨by omega, rfl, rfl⟩

theorem processLoser_fileId (d : Bool) (fsP uf : List String)
    (m : PruneMember) : (processLoser d fsP uf m).fileId = m.fileId := by
  unfold processLoser
  split_ifs <;> rfl

theorem processLoser_removed_of_no_failure (fsP uf : List String)
    (m : PruneMember) (hm : m.path ∉ uf) :
    loserRemoved (processLoser false fsP uf m) = true := by
  unfold processLoser loserRemoved
  rw [if_neg (by simp)]
  by_cases hd : m.path ∈ fsP
  · rw [if_pos (by simpa using hd), if_neg (by simpa using hm)]
    rfl
  · rw [if_neg (by simpa using hd)]
    rfl

theorem processLoser_failure_eq (fsP uf : List String) (m : PruneMember)
    (hd : m.path ∈ fsP) (hf : m.path ∈ uf) :
    processLoser false fsP uf m
      = ⟨m.fileId, m.path, m.sizeB, "error",
          some ("Failed to delete " ++ m.path)⟩ := by
  unfold processLoser
  rw [if_neg (by simp), if_pos (by simpa using hd), if_pos (by simpa using hf)]

theorem candidateSet_subset (fsP : List String) (rows : List PruneMember) :
    ∀ m ∈ candidateSet fsP rows, m ∈ rows := by
  intro m hm
  unfold candidateSet at hm
  by_cases he : (rows.filter (fun m => decide (m.path ∈ fsP))).isEmpty = true
  · rw [if_pos he] at hm
    exact hm
  · rw [if_neg he] at hm
    exact (List.mem_filter.mp hm).1

theorem nodup_ids_value_inj (rows : List PruneMember)
    (h : (rows.map PruneMember.fileId).Nodup) :
    ∀ x ∈ rows, ∀ y ∈ rows, x ≠ y → x.fileId ≠ y.fileId := by
  intro x hx y hy hne heq
  exact hne (List.inj_on_of_nodup_map h hx hy heq)

theorem filter_id_eq_singleton (rows : List PruneMember) (k : PruneMember)
    (hk : k ∈ rows) (hnd : (rows.map PruneMember.fileId).Nodup) :
    rows.filter (fun m => decide (m.fileId = k.fileId)) = [k] := by
  induction rows with
  | nil => cases hk
  | cons a l ih =>
    rw [List.map_cons, List.nodup_cons] at hnd
    rcases List.mem_cons.mp hk with rfl | hk
    · rw [List.filter_cons_of_pos (by simp)]
      have : l.filter (fun m => decide (m.fileId = k.fileId)) = [] := by
        rw [List.filter_eq_nil_iff]
        intro m hm hcon
        simp only [decide_eq_true_eq] at hcon
        exact hnd.1 (hcon ▸ List.mem_map_of_mem PruneMember.fileId hm)
      rw [this]
    · have hne : ¬ (a.fileId = k.fileId) := by
        intro hcon
        exact hnd.1 (hcon ▸ List.mem_map_of_mem PruneMember.fileId hk)
      rw [List.filter_cons_of_neg (by simpa using hne)]
      exact ih hk hnd.2

theorem pruneKeyLt_mtime_le (a b : PruneMember)
    (h : pruneKeyLt false a b = true) : a.mtime ≤ b.mtime := by
  rw [pruneKeyLt_iff] at h
  have hma : mtimeKey false a = a.mtime := rfl
  have hmb : mtimeKey false b = b.mtime := rfl
  rcases h with h | ⟨h, _⟩
  · rw [hma, hmb] at h
    exact le_of_lt h
  · rw [hma, hmb] at h
    exact le_of_eq h

/-- Sample group for the counterexample: the older file (mtime 1) is gone
from disk, the newer one (mtime 2) still exists. -/
def cexGroup : List PruneMember :=
  [⟨1, "a", 100, 1⟩, ⟨2, "b", 100, 2⟩]

/-- C1 counterexample: with keep-strategy `oldest` in execute mode, the
group's surviving row is the on-disk member with mtime 2 — not the minimum
mtime (1) of the original members, because the keeper is selected among
members that still exist on disk and the missing older row is pruned from the
catalog. -/
theorem prune_oldest_counterexample :
    pruneSurvivors false false ["b"] [] cexGroup
      = [⟨2, "b", 100, 2⟩] ∧
    ¬ (∀ s ∈ pruneSurvivors false false ["b"] [] cexGroup,
        ∀ m ∈ cexGroup, s.mtime ≤ m.mtime) := by
  decide

/-- C1 (amended): in a prune with keep-strategy `oldest`, the keeper of every
processed group is the first member under the ordering (parsed mtime
ascending, then lowercased path ascending, then `file_id` ascending) taken
over the members whose file exists on disk (over all members when none
exist); and in execute mode, when every unlink succeeds, the group's sole
surviving catalog row is that keeper, whose mtime is minimal among the
members that were considered for keeping — not necessarily among all
original members. -/
theorem prune_oldest_keeper_minimal (fsP : List String)
    (rows : List PruneMember) (plan : GroupPlan)
    (hnd : (rows.map PruneMember.fileId).Nodup)
    (hplan : pruneGroup false false fsP [] rows = some plan) :
    plan.keeper ∈ candidateSet fsP rows ∧
    (∀ m ∈ candidateSet fsP rows, m = plan.keeper ∨
      pruneKeyLt false plan.keeper m = true) ∧
    pruneSurvivors false false fsP [] rows = [plan.keeper] ∧
    (∀ m ∈ candidateSet fsP rows, plan.keeper.mtime ≤ m.mtime) := by
  obtain ⟨hlen, hsel, hdup⟩ := pruneGroup_spec false false fsP [] rows plan hplan
  have hUrows := nodup_ids_value_inj rows hnd
  have hUc : ∀ x ∈ candidateSet fsP rows, ∀ y ∈ candidateSet fsP rows,
      x ≠ y → x.fileId ≠ y.fileId := by
    intro x hx y hy
    exact hUrows x (candidateSet_subset fsP rows x hx) y
      (candidateSet_subset fsP rows y hy)
  obtain ⟨hkmem, hkmin⟩ :=
    selectKeeper_spec false (candidateSet fsP rows) plan.keeper hsel hUc
  have hkrows : plan.keeper ∈ rows := candidateSet_subset fsP rows _ hkmem
  refine ⟨hkmem, hkmin, ?_, ?_⟩
  · unfold pruneSurvivors
    rw [hplan]
    have hrem : planRemovedIds plan
        = (pruneLosers rows plan.keeper).map PruneMember.fileId := by
      unfold planRemovedIds
      rw [hdup, List.filter_eq_self.mpr, List.map_map]
      · apply List.map_congr_left
        intro m _
        exact processLoser_fileId false fsP [] m
      · intro e he
        obtain ⟨m, _, hme⟩ := List.mem_map.mp he
        rw [← hme]
        exact processLoser_removed_of_no_failure fsP [] m (by simp)
    have hfc : rows.filter
        (fun m => !(decide (m.fileId ∈ planRemovedIds plan)))
        = rows.filter (fun m => decide (m.fileId = plan.keeper.fileId)) := by
      apply List.filter_congr
      intro m hm
      have hiff : m.fileId ∈ planRemovedIds plan ↔
          m.fileId ≠ plan.keeper.fileId := by
        rw [hrem]
        constructor
        · intro hmem
          obtain ⟨l, hl, hlid⟩ := List.mem_map.mp hmem
          have hlrows := (List.mem_filter.mp hl).1
          have hlne : l.fileId ≠ plan.keeper.fileId := by
            have := (List.mem_filter.mp hl).2
            simpa using this
          rw [← hlid]
          exact hlne
        · intro hne
          refine List.mem_map_of_mem PruneMember.fileId ?_
          unfold pruneLosers
          rw [List.mem_filter]
          exact ⟨hm, by simpa using hne⟩
      by_cases hid : m.fileId = plan.keeper.fileId
      · have hnot : plan.keeper.fileId ∉ planRemovedIds plan := fun hcon =>
          (hiff.mp (by rw [hid]; exact hcon)) hid
        simp [hid, hnot]
      · have hin : m.fileId ∈ planRemovedIds plan := hiff.mpr hid
        simp [hid, hin]
    show (List.filter (fun m => !decide (m.fileId ∈ planRemovedIds plan)) rows)
      = [plan.keeper]
    rw [hfc]
    exact filter_id_eq_singleton rows plan.keeper hkrows hnd
  · intro m hm
    rcases hkmin m hm with rfl | hlt
    · exact le_refl _
    · exact pruneKeyLt_mtime_le _ _ hlt

/-- C1 witness: a two-member group, both on disk, keeper is the older file. -/
theorem prune_oldest_keeper_minimal_witness :
    (([⟨1, "a", 100, 5⟩, ⟨2, "b", 100, 3⟩] : List PruneMember).map
        PruneMember.fileId).Nodup ∧
    pruneGroup false false ["a", "b"] [] [⟨1, "a", 100, 5⟩, ⟨2, "b", 100, 3⟩]
      = some ⟨⟨2, "b", 100, 3⟩, [⟨1, "a", 100, "deleted +db-pruned", none⟩]⟩ ∧
    (⟨⟨2, "b", 100, 3⟩, [⟨1, "a", 100, "deleted +db-pruned", none⟩]⟩ :
        GroupPlan).keeper
      ∈ candidateSet ["a", "b"] [⟨1, "a", 100, 5⟩, ⟨2, "b", 100, 3⟩] ∧
    (∀ m ∈ candidateSet ["a", "b"] [⟨1, "a", 100, 5⟩, ⟨2, "b", 100, 3⟩],
      m = (⟨⟨2, "b", 100, 3⟩,
          [⟨1, "a", 100, "deleted +db-pruned", none⟩]⟩ : GroupPlan).keeper ∨
      pruneKeyLt false (⟨⟨2, "b", 100, 3⟩,
          [⟨1, "a", 100, "deleted +db-pruned", none⟩]⟩ : GroupPlan).keeper m
        = true) ∧
    pruneSurvivors false false ["a", "b"] []
        [⟨1, "a", 100, 5⟩, ⟨2, "b", 100, 3⟩]
      = [(⟨⟨2, "b", 100, 3⟩,
          [⟨1, "a", 100, "deleted +db-pruned", none⟩]⟩ : GroupPlan).keeper] ∧
    (∀ m ∈ candidateSet ["a", "b"] [⟨1, "a", 100, 5⟩, ⟨2, "b", 100, 3⟩],
      (⟨⟨2, "b", 100, 3⟩,
          [⟨1, "a", 100, "deleted +db-pruned", none⟩]⟩ : GroupPlan).keeper.mtime
        ≤ m.mtime) := by
  refine ⟨by decide, by decide, ?_⟩
  have h := prune_oldest_keeper_minimal ["a", "b"]
    [⟨1, "a", 100, 5⟩, ⟨2, "b", 100, 3⟩]
    ⟨⟨2, "b", 100, 3⟩, [⟨1, "a", 100, "deleted +db-pruned", none⟩]⟩
    (by decide) (by decide)
  exact ⟨h.1, h.2.1, h.2.2.1, h.2.2.2⟩

/-- C9: in an execute-mode prune, a loser whose unlink raises has the
failure recorded in the returned error list, keeps its catalog row, and does
not disturb the rest of the prune: every other loser of any group whose
unlink succeeds still has its file deleted and its row pruned. -/
theorem prune_unlink_failure_isolated (keepNewest : Bool)
    (fsP unlinkFails : List String) (groups : List (List PruneMember))
    (g : List PruneMember) (plan : GroupPlan) (L : PruneMember)
    (hg : g ∈ groups)
    (hplan : pruneGroup false keepNewest fsP unlinkFails g = some plan)
    (hL : L ∈ g) (hLk : L.fileId ≠ plan.keeper.fileId)
    (hdisk : L.path ∈ fsP) (hfail : L.path ∈ unlinkFails)
    (huniq : ∀ g' ∈ groups, ∀ M ∈ g', M.fileId = L.fileId →
      M.path ∈ fsP ∧ M.path ∈ unlinkFails) :
    ("Failed to delete " ++ L.path) ∈ pruneErrors
      (prune_hash_duplicates_plans false keepNewest fsP unlinkFails groups) ∧
    L.fileId ∉ pruneRemovedIds
      (prune_hash_duplicates_plans false keepNewest fsP unlinkFails groups) ∧
    (∀ g' ∈ groups, ∀ plan',
      pruneGroup false keepNewest fsP unlinkFails g' = some plan' →
      ∀ M ∈ g', M.fileId ≠ plan'.keeper.fileId → M.path ∈ fsP →
        M.path ∉ unlinkFails →
        M.fileId ∈ pruneRemovedIds
          (prune_hash_duplicates_plans false keepNewest fsP unlinkFails
            groups)) := by
  have hplanmem : plan ∈
      prune_hash_duplicates_plans false keepNewest fsP unlinkFails groups :=
    List.mem_filterMap.mpr ⟨g, hg, hplan⟩
  obtain ⟨_, _, hdup⟩ :=
    pruneGroup_spec false keepNewest fsP unlinkFails g plan hplan
  have hLlos : L ∈ pruneLosers g plan.keeper := by
    unfold pruneLosers
    rw [List.mem_filter]
    exact ⟨hL, by simpa using hLk⟩
  have hLentry : processLoser false fsP unlinkFails L ∈ plan.duplicates := by
    rw [hdup]
    exact List.mem_map_of_mem _ hLlos
  refine ⟨?_, ?_, ?_⟩
  · unfold pruneErrors
    rw [List.mem_flatten]
    refine ⟨plan.duplicates.filterMap (fun e => e.err),
      List.mem_map_of_mem _ hplanmem, ?_⟩
    rw [List.mem_filterMap]
    refine ⟨processLoser false fsP unlinkFails L, hLentry, ?_⟩
    rw [processLoser_failure_eq fsP unlinkFails L hdisk hfail]
  · intro hmem
    unfold pruneRemovedIds at hmem
    rw [List.mem_flatten] at hmem
    obtain ⟨ids, hids, hLin⟩ := hmem
    obtain ⟨plan', hplan'mem, hids'⟩ := List.mem_map.mp hids
    obtain ⟨g', hg', hplan'⟩ := List.mem_filterMap.mp hplan'mem
    obtain ⟨_, _, hdup'⟩ :=
      pruneGroup_spec false keepNewest fsP unlinkFails g' plan' hplan'
    rw [← hids'] at hLin
    unfold planRemovedIds at hLin
    obtain ⟨e, he, heid⟩ := List.mem_map.mp hLin
    rw [List.mem_filter] at he
    have hedup := he.1
    rw [hdup'] at hedup
    obtain ⟨M, hMlos, hMe⟩ := List.mem_map.mp hedup
    have hMg' : M ∈ g' := (List.mem_filter.mp hMlos).1
    have hMid : M.fileId = L.fileId := by
      rw [← heid, ← hMe, processLoser_fileId]
    obtain ⟨hMdisk, hMfail⟩ := huniq g' hg' M hMg' hMid
    have hMerr := processLoser_failure_eq fsP unlinkFails M hMdisk hMfail
    have hrm := he.2
    rw [← hMe, hMerr] at hrm
    unfold loserRemoved at hrm
    simp at hrm
  · intro g' hg' plan' hplan' M hM hMk hMd hMnf
    obtain ⟨_, _, hdup'⟩ :=
      pruneGroup_spec false keepNewest fsP unlinkFails g' plan' hplan'
    have hMlos : M ∈ pruneLosers g' plan'.keeper := by
      unfold pruneLosers
      rw [List.mem_filter]
      exact ⟨hM, by simpa using hMk⟩
    have hMentry : processLoser false fsP unlinkFails M ∈ plan'.duplicates := by
      rw [hdup']
      exact List.mem_map_of_mem _ hMlos
    unfold pruneRemovedIds
    rw [List.mem_flatten]
    refine ⟨planRemovedIds plan',
      List.mem_map_of_mem _ (List.mem_filterMap.mpr ⟨g', hg', hplan'⟩), ?_⟩
    unfold planRemovedIds
    rw [← processLoser_fileId false fsP unlinkFails M]
    refine List.mem_map_of_mem _ ?_
    rw [List.mem_filter]
    exact ⟨hMentry, processLoser_removed_of_no_failure fsP unlinkFails M hMnf⟩

/-- C9 witness: one group of three members, all on disk, unlink of `"b"`
fails; the keeper is the oldest member `"a"`. -/
theorem prune_unlink_failure_isolated_witness :
    ([⟨1, "a", 100, 1⟩, ⟨2, "b", 100, 2⟩, ⟨3, "c", 100, 3⟩] : List PruneMember)
      ∈ [[(⟨1, "a", 100, 1⟩ : PruneMember), ⟨2, "b", 100, 2⟩, ⟨3, "c", 100, 3⟩]] ∧
    pruneGroup false false ["a", "b", "c"] ["b"]
        [⟨1, "a", 100, 1⟩, ⟨2, "b", 100, 2⟩, ⟨3, "c", 100, 3⟩]
      = some ⟨⟨1, "a", 100, 1⟩,
          [⟨2, "b", 100, "error", some "Failed to delete b"⟩,
           ⟨3, "c", 100, "deleted +db-pruned", none⟩]⟩ ∧
    (⟨2, "b", 100, 2⟩ : PruneMember)
      ∈ [(⟨1, "a", 100, 1⟩ : PruneMember), ⟨2, "b", 100, 2⟩, ⟨3, "c", 100, 3⟩] ∧
    ("Failed to delete " ++ "b") ∈ pruneErrors
      (prune_hash_duplicates_plans false false ["a", "b", "c"] ["b"]
        [[⟨1, "a", 100, 1⟩, ⟨2, "b", 100, 2⟩, ⟨3, "c", 100, 3⟩]]) ∧
    (2 : Nat) ∉ pruneRemovedIds
      (prune_hash_duplicates_plans false false ["a", "b", "c"] ["b"]
        [[⟨1, "a", 100, 1⟩, ⟨2, "b", 100, 2⟩, ⟨3, "c", 100, 3⟩]]) ∧
    (3 : Nat) ∈ pruneRemovedIds
      (prune_hash_duplicates_plans false false ["a", "b", "c"] ["b"]
        [[⟨1, "a", 100, 1⟩, ⟨2, "b", 100, 2⟩, ⟨3, "c", 100, 3⟩]]) := by
  have h := prune_unlink_failure_isolated false ["a", "b", "c"] ["b"]
    [[⟨1, "a", 100, 1⟩, ⟨2, "b", 100, 2⟩, ⟨3, "c", 100, 3⟩]]
    [⟨1, "a", 100, 1⟩, ⟨2, "b", 100, 2⟩, ⟨3, "c", 100, 3⟩]
    ⟨⟨1, "a", 100, 1⟩,
      [⟨2, "b", 100, "error", some "Failed to delete b"⟩,
       ⟨3, "c", 100, "deleted +db-pruned", none⟩]⟩
    ⟨2, "b", 100, 2⟩
    (by decide) (by decide) (by decide) (by decide) (by decide) (by decide)
    (by decide)
  refine ⟨by decide, by decide, by decide, h.1, h.2.1, ?_⟩
  exact h.2.2 [⟨1, "a", 100, 1⟩, ⟨2, "b", 100, 2⟩, ⟨3, "c", 100, 3⟩]
    (by decide)
    ⟨⟨1, "a", 100, 1⟩,
      [⟨2, "b", 100, "error", some "Failed to delete b"⟩,
       ⟨3, "c", 100, "deleted +db-pruned", none⟩]⟩
    (by decide) ⟨3, "c", 100, 3⟩ (by decide) (by decide) (by decide)
    (by decide)

/-! ## CLI control flow (`catalog/commands/dedupe.py`, `run_from_args`; the
same guard appears in `catalog/dedupe.py`, `main`)

The command's effects are tracked as an event trace: detection runs,
metadata-based catalog-row pruning, hash-prune invocations (the only path
that unlinks files and prunes rows by hash), and the user-facing messages of
the delete path.  The report sections only read the catalog and print, so
they are not tracked.  External outcomes (detected metadata groups, the
preview's flagged-file count, the confirmation prompt answer) are inputs. -/

inductive CliEvent
  | message (text : String)
  | detectDuplicates (metadataOnly : Bool)
  | metadataPruneRows
  | hashPrune (dryRun : Bool)
deriving DecidableEq

structure DedupeArgs where
  metadata_only : Bool
  metadata_prune : Bool
  report : Bool
  report_only : Bool
  skip_quick_hash : Bool
  skip_sha256 : Bool
  delete_duplicates : Bool
  dry_run : Bool
  keep_newest : Bool
  no_confirm : Bool
deriving DecidableEq

/-- `--metadata-prune` implies `--metadata-only` (`args.metadata_only =
True` at the top of `run_from_args`). -/
def effectiveMetadataOnly (args : DedupeArgs) : Bool :=
  args.metadata_only || args.metadata_prune

/-- Detection section: runs unless `--report-only` without metadata mode. -/
def detectEvents (args : DedupeArgs) : List CliEvent :=
  if !args.report_only || effectiveMetadataOnly args then
    [CliEvent.detectDuplicates (effectiveMetadataOnly args)]
  else []

/-- `--metadata-prune` section: deletes catalog rows (never files) when
detection produced metadata groups. -/
def metadataPruneEvents (args : DedupeArgs) (metaGroupsNonempty : Bool) :
    List CliEvent :=
  if args.metadata_prune then
    if metaGroupsNonempty then [CliEvent.metadataPruneRows]
    else [CliEvent.message
      "No metadata duplicate groups found; nothing to prune."]
  else []

/-- The `--delete-duplicates` section: refuse outright in metadata-only mode;
otherwise preview with `prune_hash_duplicates(dry_run=True)` and, depending
on the preview, `--dry-run` and confirmation, execute
`prune_hash_duplicates(dry_run=False)`. -/
def deleteEvents (args : DedupeArgs) (previewFilesConsidered : Nat)
    (userConfirms : Bool) : List CliEvent :=
  if args.delete_duplicates then
    if effectiveMetadataOnly args then
      [CliEvent.message
        "Cannot delete duplicates while running in metadata-only mode. Rerun without --metadata-only."]
    else
      CliEvent.hashPrune true ::
      (if previewFilesConsidered = 0 then
        [CliEvent.message "No duplicate files eligible for removal."]
      else if args.dry_run then
        [CliEvent.message "Dry run requested; no files were removed."]
      else if !args.no_confirm && !userConfirms then
        [CliEvent.message "Duplicate deletion cancelled."]
      else
        [CliEvent.hashPrune false])
  else []

/-- The event trace of `run_from_args`. -/
def run_from_args_events (args : DedupeArgs) (metaGroupsNonempty : Bool)
    (previewFilesConsidered : Nat) (userConfirms : Bool) : List CliEvent :=
  detectEvents args ++ metadataPruneEvents args metaGroupsNonempty ++
    deleteEvents args previewFilesConsidered userConfirms

/-- C2: invoking `dedupe` with both `--delete-duplicates` and
`--metadata-only` emits the refusal message and never invokes
`prune_hash_duplicates` — not even as a dry-run preview — so no file is
unlinked and no catalog row is removed by the hash-prune path, and
metadata-only duplicate groups never drive filesystem deletion. -/
theorem metadata_only_never_deletes (args : DedupeArgs)
    (metaGroupsNonempty userConfirms : Bool) (previewFilesConsidered : Nat)
    (h1 : args.delete_duplicates = true) (h2 : args.metadata_only = true) :
    CliEvent.message
        "Cannot delete duplicates while running in metadata-only mode. Rerun without --metadata-only."
      ∈ run_from_args_events args metaGroupsNonempty previewFilesConsidered
          userConfirms ∧
    ∀ d : Bool, CliEvent.hashPrune d
      ∉ run_from_args_events args metaGroupsNonempty previewFilesConsidered
          userConfirms := by
  have hmeta : effectiveMetadataOnly args = true := by
    unfold effectiveMetadataOnly
    rw [h2]
    rfl
  have hdel : deleteEvents args previewFilesConsidered userConfirms
      = [CliEvent.message
          "Cannot delete duplicates while running in metadata-only mode. Rerun without --metadata-only."] := by
    unfold deleteEvents
    rw [h1, if_pos rfl, hmeta, if_pos rfl]
  constructor
  · unfold run_from_args_events
    rw [hdel]
    simp
  · intro d hmem
    unfold run_from_args_events at hmem
    rw [hdel] at hmem
    rcases List.mem_append.mp hmem with hmem | hmem
    · rcases List.mem_append.mp hmem with hmem | hmem
      · unfold detectEvents at hmem
        by_cases hc : (!args.report_only || effectiveMetadataOnly args) = true
        · rw [if_pos hc] at hmem
          simp at hmem
        · rw [if_neg hc] at hmem
          cases hmem
      · unfold metadataPruneEvents at hmem
        by_cases hc : args.metadata_prune = true
        · rw [if_pos hc] at hmem
          by_cases hm : metaGroupsNonempty = true
          · rw [if_pos hm] at hmem
            simp at hmem
          · rw [if_neg hm] at hmem
            simp at hmem
        · rw [if_neg hc] at hmem
          cases hmem
    · simp at hmem

/-- C2 witness: `--delete-duplicates --metadata-only` with arbitrary
concrete externals. -/
theorem metadata_only_never_deletes_witness :
    (DedupeArgs.mk true false false false false false true false false
        false).delete_duplicates = true ∧
    (DedupeArgs.mk true false false false false false true false false
        false).metadata_only = true ∧
    (CliEvent.message
        "Cannot delete duplicates while running in metadata-only mode. Rerun without --metadata-only."
      ∈ run_from_args_events
          (DedupeArgs.mk true false false false false false true false false
            false) false 5 true ∧
      ∀ d : Bool, CliEvent.hashPrune d
        ∉ run_from_args_events
            (DedupeArgs.mk true false false false false false true false false
              false) false 5 true) :=
  ⟨by decide, by decide,
    metadata_only_never_deletes
      (DedupeArgs.mk true false false false false false true false false
        false) false true 5 (by decide) (by decide)⟩

end Cataloger
